import Mathlib

/-!
Verification of the `depgraph` dependency-graph engine (`src/depgraph.go`).

The Go module keeps three mutually consistent hash maps:

* `nodes        Set[T]`   -- the Node Set
* `dependents   Edges[T]` -- dependency -> set of dependents (Dependent Index)
* `dependencies Edges[T]` -- dependent  -> set of dependencies (Dependency Index)

We embed `Set[T]` as `Finset T` and `Edges[T]` as an explicit key set
together with a value function.  A Go map distinguishes "key absent" from
"key present with an empty value"; the `val_eq_empty_of_not_mem_keys` field
records the Go semantics that reading an absent key yields the empty (nil)
set, while a key may still be present with an empty value, which lets us
state the specification invariant "index entries with empty value sets are
removed" as a non-trivial property.

Loops of the Go code (breadth-first search in `Dependencies`/`Dependents`,
the `Layers` leaf-peeling loop and the work-queue loops of `RemoveForce`
and `RemoveAutoRemove`) are embedded with an explicit fuel parameter that
is large enough for the loop to reach its exit condition; sufficiency of
the fuel is proved, not assumed.  The Go `panic` branches inside
`RemoveForce`/`RemoveAutoRemove` are modelled by returning `none`.
-/

set_option linter.unusedSectionVars false
set_option linter.unusedVariables false

namespace Depgraph

/-- Error values of the Go package (`ErrDependsOnSelf`, `ErrDependentExists`,
`ErrNoSuchDependency`, `ErrCircularDependency`). -/
inductive DepErr where
  | ErrDependsOnSelf
  | ErrDependentExists
  | ErrNoSuchDependency
  | ErrCircularDependency
deriving DecidableEq, Repr

variable {T : Type} [LinearOrder T]

/-- Fueled extraction of a finset's elements in ascending order. -/
def iterAux : Nat → Finset T → List T
  | 0, _ => []
  | n + 1, s =>
    match s.min with
    | none => []
    | some m => m :: iterAux n (s.erase m)

/-- Iteration order chosen for a Go `for ... range` over a set: Go map
iteration order is arbitrary, so the embedding fixes the ascending order. -/
def iterList (s : Finset T) : List T := iterAux s.card s


structure Edges (T : Type) where
  keys : Finset T
  val : T → Finset T
  val_eq_empty_of_not_mem_keys : ∀ k, k ∉ keys → val k = ∅

/-- The empty `Edges` map (`make(Edges[T])`). -/
def Edges.empty : Edges T :=
  ⟨∅, fun _ => ∅, fun _ _ => rfl⟩

/-- Go `Edges.Contains(key, item)`: membership of `item` in the value set at
`key` (reading from a nil map does not panic and yields false). -/
def Edges.Contains (e : Edges T) (key item : T) : Bool :=
  decide (item ∈ e.val key)

/-- Go `Edges.ContainsKey(key)`. -/
def Edges.ContainsKey (e : Edges T) (key : T) : Bool :=
  decide (key ∈ e.keys)

/-- Go helper `addToDep(deps, key, node)`: ensure a set exists at `key` and
insert `node` into it. -/
def addToDep (deps : Edges T) (key node : T) : Edges T where
  keys := insert key deps.keys
  val := fun k => if k = key then insert node (deps.val key) else deps.val k
  val_eq_empty_of_not_mem_keys := by
    intro k hk
    rw [Finset.mem_insert] at hk
    push_neg at hk
    dsimp only
    rw [if_neg hk.1]
    exact deps.val_eq_empty_of_not_mem_keys k hk.2

/-- Go helper `removeFromDep(deps, key, target)`: remove `target` from the set
at `key`; if the set would become empty, delete the whole key. -/
def removeFromDep (deps : Edges T) (key target : T) : Edges T :=
  if h : target ∈ deps.val key then
    if (deps.val key).card ≠ 1 then
      { keys := deps.keys
        val := fun k => if k = key then (deps.val key).erase target else deps.val k
        val_eq_empty_of_not_mem_keys := by
          intro k hk
          have hkey : key ∈ deps.keys := by
            by_contra hkk
            rw [deps.val_eq_empty_of_not_mem_keys key hkk] at h
            exact Finset.not_mem_empty target h
          have : k ≠ key := fun he => hk (he ▸ hkey)
          dsimp only
          rw [if_neg this]
          exact deps.val_eq_empty_of_not_mem_keys k hk }
    else
      { keys := deps.keys.erase key
        val := fun k => if k = key then ∅ else deps.val k
        val_eq_empty_of_not_mem_keys := by
          intro k hk
          dsimp only
          by_cases he : k = key
          · rw [if_pos he]
          · rw [if_neg he]
            refine deps.val_eq_empty_of_not_mem_keys k fun hm => hk ?_
            exact Finset.mem_erase.mpr ⟨he, hm⟩ }
  else deps

/-- Go `delete(deps, key)`: drop a key from the map. -/
def Edges.eraseKey (e : Edges T) (key : T) : Edges T where
  keys := e.keys.erase key
  val := fun k => if k = key then ∅ else e.val k
  val_eq_empty_of_not_mem_keys := by
    intro k hk
    dsimp only
    by_cases he : k = key
    · rw [if_pos he]
    · rw [if_neg he]
      refine e.val_eq_empty_of_not_mem_keys k fun hm => hk ?_
      exact Finset.mem_erase.mpr ⟨he, hm⟩

/-- Embedding of the Go struct `Graph[T]`. -/
structure Graph (T : Type) where
  nodes : Finset T
  dependents : Edges T
  dependencies : Edges T

/-- Go `New[T]()`: the empty graph. -/
def New (T : Type) : Graph T :=
  ⟨∅, ⟨∅, fun _ => ∅, fun _ _ => rfl⟩, ⟨∅, fun _ => ∅, fun _ _ => rfl⟩⟩

/-- Go `(g *Graph[T]) Contains(node)`. -/
def Graph.Contains (g : Graph T) (node : T) : Bool :=
  decide (node ∈ g.nodes)

/-- Go `GraphNodes()` (the copy made by Go is value-equal to the original). -/
def Graph.GraphNodes (g : Graph T) : Finset T := g.nodes

/-- Go `GraphDependents()`. -/
def Graph.GraphDependents (g : Graph T) : Edges T := g.dependents

/-- Go `GraphDependencies()`. -/
def Graph.GraphDependencies (g : Graph T) : Edges T := g.dependencies

/-- Go `DependentsDirect(node)`. -/
def Graph.DependentsDirect (g : Graph T) (node : T) : Finset T :=
  g.dependents.val node

/-- Go `DependenciesDirect(node)`. -/
def Graph.DependenciesDirect (g : Graph T) (node : T) : Finset T :=
  g.dependencies.val node

/-- Go `Clone()`: a deep copy; in the pure embedding the copy is value-equal
to the source. -/
def Graph.Clone (g : Graph T) : Graph T := g

/-- Go `Realloc()`: reallocates the backing maps; value-equal to the source. -/
def Graph.Realloc (g : Graph T) : Graph T := g

/-- The direct-dependency edge relation of the Dependency Index:
`DepRel g a b` means `a` directly depends on `b`. -/
def DepRel (g : Graph T) (a b : T) : Prop := b ∈ g.dependencies.val a

/-- The direct-dependent edge relation of the Dependent Index:
`DptRel g a b` means `b` directly depends on `a`. -/
def DptRel (g : Graph T) (a b : T) : Prop := b ∈ g.dependents.val a

/-! ### Breadth-first search (`Dependencies` / `Dependents`)

The Go BFS keeps a visited set (`dependencies`) and a frontier
(`searchNext`); each round scans the value sets of the whole frontier,
collecting unvisited nodes into `discovered`, which becomes the next
frontier.  `scanDeps` is the inner `for dep := range deps` loop,
`scanFrontier` the `for _, next := range searchNext` loop and `bfsAux` the
outer `for len(searchNext) != 0` loop, fueled. -/

/-- Inner loop of the Go BFS: fold one value set into the visited set `acc`,
appending newly discovered nodes to `disc`. -/
def scanDeps (acc : Finset T) (disc : List T) : List T → Finset T × List T
  | [] => (acc, disc)
  | dep :: rest =>
    if dep ∈ acc then scanDeps acc disc rest
    else scanDeps (insert dep acc) (disc ++ [dep]) rest

/-- Middle loop of the Go BFS: scan every frontier node's value set. -/
def scanFrontier (e : Edges T) (acc : Finset T) (disc : List T) :
    List T → Finset T × List T
  | [] => (acc, disc)
  | next :: rest =>
    scanFrontier e (scanDeps acc disc (iterList (e.val next))).1
      (scanDeps acc disc (iterList (e.val next))).2 rest

/-- Outer loop of the Go BFS, with fuel. -/
def bfsAux (e : Edges T) : Nat → Finset T → List T → Finset T
  | 0, acc, _ => acc
  | fuel + 1, acc, frontier =>
    if frontier = [] then acc
    else
      bfsAux e fuel (scanFrontier e acc [] frontier).1 (scanFrontier e acc [] frontier).2

/-- All nodes appearing in some value set of `e`; BFS discovery is bounded by
this set. -/
def Edges.searchUniv (e : Edges T) : Finset T :=
  e.keys.biUnion fun k => e.val k

/-- Fuel sufficient for the BFS outer loop starting from an empty visited
set. -/
def Edges.bfsFuel (e : Edges T) : Nat := 2 * e.searchUniv.card + 2

/-- Go `Dependencies(node)`: the transitive closure of direct dependencies;
`none` models the nil return for a node outside the Node Set. -/
def Graph.Dependencies (g : Graph T) (node : T) : Option (Finset T) :=
  if node ∈ g.nodes then some (bfsAux g.dependencies g.dependencies.bfsFuel ∅ [node])
  else none

/-- Go `Dependents(node)`: the transitive closure of direct dependents. -/
def Graph.Dependents (g : Graph T) (node : T) : Option (Finset T) :=
  if node ∈ g.nodes then some (bfsAux g.dependents g.dependents.bfsFuel ∅ [node])
  else none

/-- Go `DependsOn(dependent, dependency)`: membership in the deep dependency
closure (`Contains` on a nil set yields false). -/
def Graph.DependsOn (g : Graph T) (dependent dependency : T) : Bool :=
  match g.Dependencies dependent with
  | none => false
  | some s => decide (dependency ∈ s)

/-- Go `DependsOnDirectly(dependent, dependency)`. -/
def Graph.DependsOnDirectly (g : Graph T) (dependent dependency : T) : Bool :=
  g.dependencies.Contains dependent dependency

/-- Go `Depend(dependent, dependency)`: reject self edges and edges whose
reverse reachability would create a cycle; otherwise insert the edge into
both indices and both endpoints into the Node Set. -/
def Graph.Depend (g : Graph T) (dependent dependency : T) :
    Except DepErr (Graph T) :=
  if dependent = dependency then .error .ErrDependsOnSelf
  else if g.DependsOn dependency dependent then .error .ErrCircularDependency
  else
    .ok
      { nodes := insert dependent (insert dependency g.nodes)
        dependents := addToDep g.dependents dependency dependent
        dependencies := addToDep g.dependencies dependent dependency }

/-- Go `Undepend(dependent, dependency)`: remove the direct edge if present,
else fail with `ErrNoSuchDependency`. -/
def Graph.Undepend (g : Graph T) (dependent dependency : T) :
    Except DepErr (Graph T) :=
  if g.DependsOnDirectly dependent dependency then
    .ok
      { g with
        dependents := removeFromDep g.dependents dependency dependent
        dependencies := removeFromDep g.dependencies dependent dependency }
  else .error .ErrNoSuchDependency

/-- Go `Leaves()`: nodes whose Dependency Index entry is empty or absent
(the source tests `len(g.dependencies[node]) != 0`). -/
def Graph.Leaves (g : Graph T) : Finset T :=
  g.nodes.filter fun node => (g.dependencies.val node).card = 0

/-- Go `Delete(target)`: remove every edge touching `target` from both
indices (in the source's order of map mutations), then remove `target` from
the Node Set. -/
def Graph.Delete (g : Graph T) (target : T) : Graph T :=
  let dependents1 := (iterList (g.dependencies.val target)).foldl
    (fun e dependency => removeFromDep e dependency target) g.dependents
  let dependencies1 := g.dependencies.eraseKey target
  let dependencies2 := (iterList (dependents1.val target)).foldl
    (fun e dependent => removeFromDep e dependent target) dependencies1
  let dependents2 := dependents1.eraseKey target
  { nodes := g.nodes.erase target
    dependents := dependents2
    dependencies := dependencies2 }

/-- Go `Remove(target)`: fail with `ErrDependentExists` when the Dependent
Index still has a key for `target`, else `Delete` it. -/
def Graph.Remove (g : Graph T) (target : T) : Except DepErr (Graph T) :=
  if g.dependents.ContainsKey target then .error .ErrDependentExists
  else .ok (g.Delete target)

/-- One pass of the Go `Layers` loop body, fueled by the node count. -/
def layersLoop : Nat → Graph T → List (Finset T)
  | 0, _ => []
  | fuel + 1, g =>
    if g.nodes.card = 0 then []
    else
      g.Leaves :: layersLoop fuel ((iterList g.Leaves).foldl (fun h leaf => h.Delete leaf) g)

/-- Go `Layers()`: repeatedly peel the leaves of a working copy. -/
def Graph.Layers (g : Graph T) : List (Finset T) :=
  layersLoop g.Clone.nodes.card g.Clone

/-! ### Work-queue removal (`RemoveForce` / `RemoveAutoRemove`)

Both loops pop a `current` node, sever the edges to every direct dependent
(enqueuing each dependent), sever the edges to every direct dependency
(`RemoveAutoRemove` additionally enqueues a dependency whose only dependent
was `current`), and erase `current` from the Node Set.  A failing internal
`Undepend`, or a missing Dependent Index key for a scanned dependency, is a
Go `panic`, modelled as `none`. -/

/-- Go error propagation into the `Option` panic model: a failing internal
call is a `panic`, modelled as `none`. -/
def exceptToOption : Except DepErr (Graph T) → Option (Graph T)
  | .ok g => some g
  | .error _ => none

/-- The `for dependent := range g.dependents[current]` loop shared by both
removal cascades: sever each edge `dependent -> current` and record the
dependent for enqueuing. -/
def severDependents (g : Graph T) (current : T) :
    List T → Option (Graph T × List T)
  | [] => some (g, [])
  | dependent :: rest =>
    (exceptToOption (g.Undepend dependent current)).bind fun g1 =>
      (severDependents g1 current rest).map fun p => (p.1, dependent :: p.2)

/-- The dependency loop of `RemoveForce`: sever each edge
`current -> dependency`, panicking (`none`) if the Dependent Index has no
key for the dependency. -/
def severDependenciesForce (g : Graph T) (current : T) :
    List T → Option (Graph T)
  | [] => some g
  | dependency :: rest =>
    if g.dependents.ContainsKey dependency then
      (exceptToOption (g.Undepend current dependency)).bind fun g1 =>
        severDependenciesForce g1 current rest
    else none

/-- The dependency loop of `RemoveAutoRemove`: like the force variant, but a
dependency whose dependent set (`siblings`, read before the `Undepend`) was
exactly `{current}` is recorded for enqueuing. -/
def severDependenciesAuto (g : Graph T) (current : T) :
    List T → Option (Graph T × List T)
  | [] => some (g, [])
  | dependency :: rest =>
    if g.dependents.ContainsKey dependency then
      (exceptToOption (g.Undepend current dependency)).bind fun g1 =>
        (severDependenciesAuto g1 current rest).map fun p =>
          (p.1,
            (if (g.dependents.val dependency).card = 1 ∧ current ∈ g.dependents.val dependency
             then [dependency] else []) ++ p.2)
    else none

/-- Fueled work-queue loop of Go `RemoveForce`. -/
def forceLoop : Nat → Graph T → List T → Option (Graph T)
  | 0, _, _ => none
  | fuel + 1, g, queue =>
    match queue with
    | [] => some g
    | current :: rest =>
      (severDependents g current (iterList (g.dependents.val current))).bind fun p =>
        (severDependenciesForce p.1 current (iterList (p.1.dependencies.val current))).bind
          fun g2 => forceLoop fuel { g2 with nodes := g2.nodes.erase current } (rest ++ p.2)

/-- Fueled work-queue loop of Go `RemoveAutoRemove`. -/
def autoRemoveLoop : Nat → Graph T → List T → Option (Graph T)
  | 0, _, _ => none
  | fuel + 1, g, queue =>
    match queue with
    | [] => some g
    | current :: rest =>
      (severDependents g current (iterList (g.dependents.val current))).bind fun p =>
        (severDependenciesAuto p.1 current (iterList (p.1.dependencies.val current))).bind
          fun q => autoRemoveLoop fuel { q.1 with nodes := q.1.nodes.erase current }
            (rest ++ p.2 ++ q.2)

/-- Number of edges recorded in an `Edges` map; each successful internal
`Undepend` removes exactly one edge from the Dependency Index, which bounds
the number of work-queue iterations. -/
def edgeCount (e : Edges T) : Nat := ∑ k ∈ e.keys, (e.val k).card

/-- Fuel sufficient for a removal work queue seeded with one node. -/
def Graph.removeFuel (g : Graph T) : Nat := edgeCount g.dependencies + 2

/-- Go `RemoveForce(target)`: remove `target` and its whole downstream
dependent subtree; `none` models a `panic`. -/
def Graph.RemoveForce (g : Graph T) (target : T) : Option (Graph T) :=
  forceLoop g.removeFuel g [target]

/-- Go `RemoveAutoRemove(target)`: like `RemoveForce`, additionally removing
dependencies orphaned by the cascade; `none` models a `panic`. -/
def Graph.RemoveAutoRemove (g : Graph T) (target : T) : Option (Graph T) :=
  autoRemoveLoop g.removeFuel g [target]

/-- Build a graph by a sequence of `Depend` calls, stopping at the first
error (test scaffolding mirroring the Go tests' setup loops). -/
def dependList (g : Graph T) : List (T × T) → Except DepErr (Graph T)
  | [] => .ok g
  | (x, y) :: rest => (g.Depend x y).bind fun g1 => dependList g1 rest

/-- One directed step through an `Edges` map. -/
def EdgeStep (e : Edges T) (u v : T) : Prop := v ∈ e.val u

/-- Reachability from a work queue: membership in the queue or a transitive
dependent of a queue member. -/
def ReachList (g : Graph T) (queue : List T) (x : T) : Prop :=
  ∃ q ∈ queue, x = q ∨ Relation.TransGen (DptRel g) q x

/-! ### Concrete graphs used in scenario claims and witnesses

Node encoding for the specification scenario (edges b->a, c->a, d->c, y->x,
1->0): a = 0, b = 1, c = 2, d = 3, x = 4, y = 5, "0" = 6, "1" = 7. -/

def scenarioE : Except DepErr (Graph Nat) :=
  dependList (New Nat) [(1, 0), (2, 0), (3, 2), (5, 4), (7, 6)]

def gS : Graph Nat :=
  match scenarioE with
  | .ok g => g
  | .error _ => New Nat

def gS3 : Graph Nat :=
  match gS.RemoveAutoRemove 3 with
  | some g => g
  | none => New Nat

def gSa : Graph Nat :=
  match gS.RemoveAutoRemove 0 with
  | some g => g
  | none => New Nat

def gSax : Graph Nat :=
  match gSa.RemoveAutoRemove 4 with
  | some g => g
  | none => New Nat

def gSax1 : Graph Nat :=
  match gSax.RemoveAutoRemove 7 with
  | some g => g
  | none => New Nat

def gBA : Graph Nat :=
  match (New Nat).Depend 1 0 with
  | .ok g => g
  | .error _ => New Nat

def gU : Graph Nat :=
  match gBA.Undepend 1 0 with
  | .ok g => g
  | .error _ => New Nat

def gU2 : Graph Nat :=
  match gU.Depend 1 0 with
  | .ok g => g
  | .error _ => New Nat

def gChain : Graph Nat :=
  match dependList (New Nat) [(10, 11), (11, 12)] with
  | .ok g => g
  | .error _ => New Nat

def gChain2 : Graph Nat :=
  match gChain.Depend 10 12 with
  | .ok g => g
  | .error _ => New Nat

def gChain3 : Graph Nat :=
  match gChain2.Undepend 10 12 with
  | .ok g => g
  | .error _ => New Nat

/-! ### The specification invariants (spec section 3) -/

/-- Invariants 1-5 of the specification: index keys and value members live in
the Node Set, the two indices are exact inverses, no reflexive edges, the
Dependency Index graph is acyclic, and no index key maps to an empty set. -/
structure Inv (g : Graph T) : Prop where
  depKeys : ∀ k ∈ g.dependencies.keys, k ∈ g.nodes
  depVals : ∀ k, ∀ v ∈ g.dependencies.val k, v ∈ g.nodes
  dptKeys : ∀ k ∈ g.dependents.keys, k ∈ g.nodes
  dptVals : ∀ k, ∀ v ∈ g.dependents.val k, v ∈ g.nodes
  symm : ∀ a b, b ∈ g.dependencies.val a ↔ a ∈ g.dependents.val b
  irrefl : ∀ a, a ∉ g.dependencies.val a
  acyclic : ∀ a, ¬ Relation.TransGen (DepRel g) a a
  depNonempty : ∀ k ∈ g.dependencies.keys, g.dependencies.val k ≠ ∅
  dptNonempty : ∀ k ∈ g.dependents.keys, g.dependents.val k ≠ ∅

/-! ### Basic facts about the iteration order and the map embeddings -/

theorem mem_iterAux : ∀ (n : Nat) (s : Finset T), s.card ≤ n →
    ∀ x, (x ∈ iterAux n s ↔ x ∈ s) := by
  intro n
  induction n with
  | zero =>
    intro s hs x
    rw [Nat.le_zero, Finset.card_eq_zero] at hs
    subst hs
    simp [iterAux]
  | succ n ih =>
    intro s hs x
    cases hm : s.min with
    | top =>
      rw [Finset.min_eq_top.mp hm]
      simp [iterAux, Finset.min_empty]
    | coe m =>
      have hmem : m ∈ s := Finset.mem_of_min hm
      have hcard : (s.erase m).card ≤ n := by
        rw [Finset.card_erase_of_mem hmem]
        omega
      simp only [iterAux, hm, List.mem_cons, ih (s.erase m) hcard x, Finset.mem_erase]
      constructor
      · rintro (rfl | ⟨_, hx⟩)
        · exact hmem
        · exact hx
      · intro hx
        by_cases hxm : x = m
        · exact Or.inl hxm
        · exact Or.inr ⟨hxm, hx⟩

theorem mem_iterList {s : Finset T} {x : T} : x ∈ iterList s ↔ x ∈ s :=
  mem_iterAux s.card s le_rfl x

theorem nodup_iterAux : ∀ (n : Nat) (s : Finset T), s.card ≤ n →
    (iterAux n s).Nodup := by
  intro n
  induction n with
  | zero => intro s _; exact List.nodup_nil
  | succ n ih =>
    intro s hs
    cases hm : s.min with
    | top =>
      rw [Finset.min_eq_top.mp hm]
      simp [iterAux, Finset.min_empty]
    | coe m =>
      have hmem : m ∈ s := Finset.mem_of_min hm
      have hcard : (s.erase m).card ≤ n := by
        rw [Finset.card_erase_of_mem hmem]
        omega
      simp only [iterAux, hm, List.nodup_cons]
      refine ⟨fun hin => ?_, ih (s.erase m) hcard⟩
      have := (mem_iterAux n (s.erase m) hcard m).mp hin
      exact (Finset.mem_erase.mp this).1 rfl

theorem nodup_iterList {s : Finset T} : (iterList s).Nodup :=
  nodup_iterAux s.card s le_rfl


/-- Embedding of the Go type `Edges[T] map[T]Set[T]`: a finite key set and a
total value function.  Reading a key outside `keys` yields `∅`, matching Go's
nil-map read semantics. -/

theorem Edges.ext_keys_val {e f : Edges T} (hk : e.keys = f.keys)
    (hv : ∀ k, e.val k = f.val k) : e = f := by
  cases e with
  | mk ek ev ep =>
    cases f with
    | mk fk fv fp =>
      simp only at hk hv
      subst hk
      have : ev = fv := funext hv
      subst this
      rfl

/-- Key membership gives the contrapositive of the nil-read field. -/
theorem Edges.mem_keys_of_val_ne {e : Edges T} {k : T} (h : e.val k ≠ ∅) :
    k ∈ e.keys := by
  by_contra hk
  exact h (e.val_eq_empty_of_not_mem_keys k hk)

theorem Graph.ext_fields {g h : Graph T} (hn : g.nodes = h.nodes)
    (h1 : g.dependents = h.dependents) (h2 : g.dependencies = h.dependencies) :
    g = h := by
  cases g; cases h; simp only at hn h1 h2; subst hn; subst h1; subst h2; rfl

/-! ### Pointwise behaviour of the edge-map helpers -/

theorem addToDep_keys (deps : Edges T) (key node : T) :
    (addToDep deps key node).keys = insert key deps.keys := rfl

theorem addToDep_val (deps : Edges T) (key node k : T) :
    (addToDep deps key node).val k =
      if k = key then insert node (deps.val key) else deps.val k := rfl

/-- In every branch of `removeFromDep` the value function is the pointwise
erasure at `key`. -/
theorem removeFromDep_val (deps : Edges T) (key target k : T) :
    (removeFromDep deps key target).val k =
      if k = key then (deps.val key).erase target else deps.val k := by
  rw [removeFromDep]
  split
  · rename_i h
    split
    · rfl
    · rename_i hc
      push_neg at hc
      obtain ⟨a, ha⟩ := Finset.card_eq_one.mp hc
      have hat : a = target := by
        have := h
        rw [ha, Finset.mem_singleton] at this
        exact this.symm
      subst hat
      by_cases hk : k = key
      · simp [hk, ha]
      · simp [hk]
  · rename_i h
    by_cases hk : k = key
    · rw [if_pos hk, hk, Finset.erase_eq_of_not_mem h]
    · rw [if_neg hk]

theorem removeFromDep_keys_subset (deps : Edges T) (key target : T) :
    (removeFromDep deps key target).keys ⊆ deps.keys := by
  rw [removeFromDep]
  split
  · split
    · exact fun k hk => hk
    · exact Finset.erase_subset key deps.keys
  · exact fun k hk => hk

theorem removeFromDep_nonempty (deps : Edges T) (key target : T)
    (h5 : ∀ k ∈ deps.keys, deps.val k ≠ ∅) :
    ∀ k ∈ (removeFromDep deps key target).keys, (removeFromDep deps key target).val k ≠ ∅ := by
  intro k hk
  have hks := removeFromDep_keys_subset deps key target hk
  rw [removeFromDep_val]
  by_cases hkey : k = key
  · rw [if_pos hkey]
    subst hkey
    rw [removeFromDep] at hk
    split at hk
    · rename_i hmem
      split at hk
      · rename_i hc
        intro hemp
        have h1 : (deps.val k).card ≤ 1 := by
          have := Finset.card_erase_of_mem hmem
          rw [hemp] at this
          simp at this
          omega
        have h2 : 1 ≤ (deps.val k).card := Finset.card_pos.mpr ⟨target, hmem⟩
        exact hc (le_antisymm h1 h2)
      · exact absurd hk (Finset.not_mem_erase _ _)
    · rename_i hmem
      rw [Finset.erase_eq_of_not_mem hmem]
      exact h5 k hks
  · rw [if_neg hkey]
    exact h5 k hks

theorem edgeCount_removeFromDep (deps : Edges T) (key target : T)
    (h : target ∈ deps.val key) :
    edgeCount (removeFromDep deps key target) + 1 = edgeCount deps := by
  have hkey : key ∈ deps.keys :=
    Edges.mem_keys_of_val_ne (Finset.ne_empty_of_mem h)
  have hcardpos : 1 ≤ (deps.val key).card := Finset.card_pos.mpr ⟨target, h⟩
  rw [removeFromDep, dif_pos h]
  split
  · rename_i hc
    rw [edgeCount, edgeCount]
    rw [← Finset.add_sum_erase _ _ hkey, ← Finset.add_sum_erase _ _ hkey]
    have hcongr : ∀ x ∈ deps.keys.erase key,
        ((fun k => if k = key then (deps.val key).erase target else deps.val k) x).card
          = (deps.val x).card := by
      intro x hx
      have : x ≠ key := (Finset.mem_erase.mp hx).1
      simp [this]
    rw [Finset.sum_congr rfl hcongr]
    simp [Finset.card_erase_of_mem h]
    omega
  · rename_i hc
    push_neg at hc
    rw [edgeCount, edgeCount]
    rw [← Finset.add_sum_erase _ (fun k => (deps.val k).card) hkey]
    have hcongr : ∀ x ∈ deps.keys.erase key,
        ((fun k => if k = key then (∅ : Finset T) else deps.val k) x).card
          = (deps.val x).card := by
      intro x hx
      have : x ≠ key := (Finset.mem_erase.mp hx).1
      simp [this]
    rw [Finset.sum_congr rfl hcongr]
    simp [hc]
    omega

theorem eraseKey_val (e : Edges T) (key k : T) :
    (e.eraseKey key).val k = if k = key then ∅ else e.val k := rfl

theorem eraseKey_keys (e : Edges T) (key : T) :
    (e.eraseKey key).keys = e.keys.erase key := rfl

theorem eraseKey_nonempty (e : Edges T) (key : T)
    (h5 : ∀ k ∈ e.keys, e.val k ≠ ∅) :
    ∀ k ∈ (e.eraseKey key).keys, (e.eraseKey key).val k ≠ ∅ := by
  intro k hk
  rw [eraseKey_keys] at hk
  obtain ⟨hne, hmem⟩ := Finset.mem_erase.mp hk
  rw [eraseKey_val, if_neg hne]
  exact h5 k hmem

/-! ### Folding `removeFromDep` over a list of keys (the loops of `Delete`) -/

theorem foldRemove_val (target : T) :
    ∀ (l : List T) (e : Edges T) (k : T),
      (l.foldl (fun e d => removeFromDep e d target) e).val k =
        if k ∈ l then (e.val k).erase target else e.val k := by
  intro l
  induction l with
  | nil => intro e k; simp
  | cons d rest ih =>
    intro e k
    rw [List.foldl_cons, ih, removeFromDep_val]
    by_cases hkd : k = d
    · subst hkd
      by_cases hk : k ∈ rest
      · simp [hk, Finset.erase_idem]
      · simp [hk]
    · by_cases hk : k ∈ rest
      · simp [hk, hkd]
      · simp [hk, hkd]

theorem foldRemove_keys_subset (target : T) :
    ∀ (l : List T) (e : Edges T),
      (l.foldl (fun e d => removeFromDep e d target) e).keys ⊆ e.keys := by
  intro l
  induction l with
  | nil => intro e; exact fun k hk => hk
  | cons d rest ih =>
    intro e
    rw [List.foldl_cons]
    exact fun k hk => removeFromDep_keys_subset e d target (ih (removeFromDep e d target) hk)

theorem foldRemove_nonempty (target : T) :
    ∀ (l : List T) (e : Edges T), (∀ k ∈ e.keys, e.val k ≠ ∅) →
      ∀ k ∈ (l.foldl (fun e d => removeFromDep e d target) e).keys,
        (l.foldl (fun e d => removeFromDep e d target) e).val k ≠ ∅ := by
  intro l
  induction l with
  | nil => intro e h5; exact h5
  | cons d rest ih =>
    intro e h5
    rw [List.foldl_cons]
    exact ih (removeFromDep e d target) (removeFromDep_nonempty e d target h5)

/-! ### Correctness of the breadth-first search -/


theorem depRel_eq_edgeStep (g : Graph T) : DepRel g = EdgeStep g.dependencies := rfl

theorem dptRel_eq_edgeStep (g : Graph T) : DptRel g = EdgeStep g.dependents := rfl

theorem mem_searchUniv {e : Edges T} {x y : T} (h : y ∈ e.val x) :
    y ∈ e.searchUniv := by
  have hx : x ∈ e.keys := Edges.mem_keys_of_val_ne (Finset.ne_empty_of_mem h)
  exact Finset.mem_biUnion.mpr ⟨x, hx, h⟩

theorem scanDeps_acc_subset : ∀ (l : List T) (acc : Finset T) (disc : List T),
    acc ⊆ (scanDeps acc disc l).1 := by
  intro l
  induction l with
  | nil => intro acc disc; exact fun x hx => hx
  | cons d rest ih =>
    intro acc disc
    rw [scanDeps]
    by_cases hd : d ∈ acc
    · rw [if_pos hd]
      exact ih acc disc
    · rw [if_neg hd]
      exact fun x hx => ih (insert d acc) (disc ++ [d]) (Finset.mem_insert_of_mem hx)

theorem scanDeps_acc_mem : ∀ (l : List T) (acc : Finset T) (disc : List T) (x : T),
    x ∈ (scanDeps acc disc l).1 ↔ x ∈ acc ∨ x ∈ l := by
  intro l
  induction l with
  | nil => intro acc disc x; simp [scanDeps]
  | cons d rest ih =>
    intro acc disc x
    rw [scanDeps]
    by_cases hd : d ∈ acc
    · rw [if_pos hd, ih]
      constructor
      · rintro (hx | hx)
        · exact Or.inl hx
        · exact Or.inr (List.mem_cons.mpr (Or.inr hx))
      · rintro (hx | hx)
        · exact Or.inl hx
        · rcases List.mem_cons.mp hx with rfl | hx
          · exact Or.inl hd
          · exact Or.inr hx
    · rw [if_neg hd, ih]
      simp only [Finset.mem_insert, List.mem_cons]
      tauto

theorem scanDeps_disc_mono : ∀ (l : List T) (acc : Finset T) (disc : List T),
    ∀ x ∈ disc, x ∈ (scanDeps acc disc l).2 := by
  intro l
  induction l with
  | nil => intro acc disc x hx; exact hx
  | cons d rest ih =>
    intro acc disc x hx
    rw [scanDeps]
    by_cases hd : d ∈ acc
    · rw [if_pos hd]
      exact ih acc disc x hx
    · rw [if_neg hd]
      exact ih (insert d acc) (disc ++ [d]) x (List.mem_append_left [d] hx)

theorem scanDeps_disc_mem : ∀ (l : List T) (acc : Finset T) (disc : List T) (x : T),
    x ∈ (scanDeps acc disc l).2 → x ∈ disc ∨ (x ∈ l ∧ x ∉ acc) := by
  intro l
  induction l with
  | nil => intro acc disc x hx; exact Or.inl hx
  | cons d rest ih =>
    intro acc disc x hx
    rw [scanDeps] at hx
    by_cases hd : d ∈ acc
    · rw [if_pos hd] at hx
      rcases ih acc disc x hx with h | ⟨h1, h2⟩
      · exact Or.inl h
      · exact Or.inr ⟨List.mem_cons.mpr (Or.inr h1), h2⟩
    · rw [if_neg hd] at hx
      rcases ih (insert d acc) (disc ++ [d]) x hx with h | ⟨h1, h2⟩
      · rcases List.mem_append.mp h with h | h
        · exact Or.inl h
        · rw [List.mem_singleton] at h
          subst h
          exact Or.inr ⟨List.mem_cons_self x rest, hd⟩
      · rw [Finset.mem_insert] at h2
        push_neg at h2
        exact Or.inr ⟨List.mem_cons.mpr (Or.inr h1), h2.2⟩

theorem scanDeps_mem2of1 : ∀ (l : List T) (acc : Finset T) (disc : List T) (x : T),
    x ∈ (scanDeps acc disc l).1 → x ∈ acc ∨ x ∈ (scanDeps acc disc l).2 := by
  intro l
  induction l with
  | nil => intro acc disc x hx; exact Or.inl hx
  | cons d rest ih =>
    intro acc disc x hx
    rw [scanDeps] at hx ⊢
    by_cases hd : d ∈ acc
    · rw [if_pos hd] at hx ⊢
      exact ih acc disc x hx
    · rw [if_neg hd] at hx ⊢
      rcases ih (insert d acc) (disc ++ [d]) x hx with h | h
      · rcases Finset.mem_insert.mp h with rfl | h
        · exact Or.inr (scanDeps_disc_mono rest (insert x acc) (disc ++ [x]) x
            (List.mem_append_right disc (List.mem_singleton.mpr rfl)))
        · exact Or.inl h
      · exact Or.inr h

theorem scanDeps_disc_sub : ∀ (l : List T) (acc : Finset T) (disc : List T) (x : T),
    x ∈ (scanDeps acc disc l).2 → x ∈ disc ∨ x ∈ (scanDeps acc disc l).1 := by
  intro l
  induction l with
  | nil => intro acc disc x hx; exact Or.inl hx
  | cons d rest ih =>
    intro acc disc x hx
    rw [scanDeps] at hx ⊢
    by_cases hd : d ∈ acc
    · rw [if_pos hd] at hx ⊢
      exact ih acc disc x hx
    · rw [if_neg hd] at hx ⊢
      rcases ih (insert d acc) (disc ++ [d]) x hx with h | h
      · rcases List.mem_append.mp h with h | h
        · exact Or.inl h
        · rw [List.mem_singleton] at h
          subst h
          exact Or.inr (scanDeps_acc_subset rest (insert x acc) (disc ++ [x])
            (Finset.mem_insert_self x acc))
      · exact Or.inr h

theorem scanDeps_card : ∀ (l : List T) (acc : Finset T) (disc : List T),
    (scanDeps acc disc l).1.card + disc.length =
      acc.card + (scanDeps acc disc l).2.length := by
  intro l
  induction l with
  | nil => intro acc disc; rw [scanDeps]
  | cons d rest ih =>
    intro acc disc
    rw [scanDeps]
    by_cases hd : d ∈ acc
    · rw [if_pos hd]
      exact ih acc disc
    · rw [if_neg hd]
      have h := ih (insert d acc) (disc ++ [d])
      rw [Finset.card_insert_of_not_mem hd, List.length_append, List.length_singleton] at h
      omega

theorem scanFrontier_acc_subset (e : Edges T) : ∀ (fr : List T) (acc : Finset T) (disc : List T),
    acc ⊆ (scanFrontier e acc disc fr).1 := by
  intro fr
  induction fr with
  | nil => intro acc disc; exact fun x hx => hx
  | cons next rest ih =>
    intro acc disc
    rw [scanFrontier]
    exact fun x hx => ih _ _ (scanDeps_acc_subset (iterList (e.val next)) acc disc hx)

theorem scanFrontier_acc_mem (e : Edges T) : ∀ (fr : List T) (acc : Finset T) (disc : List T) (x : T),
    x ∈ (scanFrontier e acc disc fr).1 ↔ x ∈ acc ∨ ∃ n ∈ fr, x ∈ e.val n := by
  intro fr
  induction fr with
  | nil => intro acc disc x; simp [scanFrontier]
  | cons next rest ih =>
    intro acc disc x
    rw [scanFrontier, ih, scanDeps_acc_mem]
    rw [mem_iterList]
    constructor
    · rintro ((hx | hx) | ⟨n, hn, hx⟩)
      · exact Or.inl hx
      · exact Or.inr ⟨next, List.mem_cons_self next rest, hx⟩
      · exact Or.inr ⟨n, List.mem_cons.mpr (Or.inr hn), hx⟩
    · rintro (hx | ⟨n, hn, hx⟩)
      · exact Or.inl (Or.inl hx)
      · rcases List.mem_cons.mp hn with rfl | hn
        · exact Or.inl (Or.inr hx)
        · exact Or.inr ⟨n, hn, hx⟩

theorem scanFrontier_disc_mono (e : Edges T) : ∀ (fr : List T) (acc : Finset T) (disc : List T),
    ∀ x ∈ disc, x ∈ (scanFrontier e acc disc fr).2 := by
  intro fr
  induction fr with
  | nil => intro acc disc x hx; exact hx
  | cons next rest ih =>
    intro acc disc x hx
    rw [scanFrontier]
    exact ih _ _ x (scanDeps_disc_mono (iterList (e.val next)) acc disc x hx)

theorem scanFrontier_disc_mem (e : Edges T) : ∀ (fr : List T) (acc : Finset T) (disc : List T) (x : T),
    x ∈ (scanFrontier e acc disc fr).2 →
      x ∈ disc ∨ (x ∉ acc ∧ ∃ n ∈ fr, x ∈ e.val n) := by
  intro fr
  induction fr with
  | nil => intro acc disc x hx; exact Or.inl hx
  | cons next rest ih =>
    intro acc disc x hx
    rw [scanFrontier] at hx
    rcases ih _ _ x hx with h | ⟨hnacc, n, hn, hv⟩
    · rcases scanDeps_disc_mem (iterList (e.val next)) acc disc x h with h | ⟨h1, h2⟩
      · exact Or.inl h
      · rw [mem_iterList] at h1
        exact Or.inr ⟨h2, next, List.mem_cons_self next rest, h1⟩
    · have hnacc2 : x ∉ acc := fun hx2 =>
        hnacc (scanDeps_acc_subset (iterList (e.val next)) acc disc hx2)
      exact Or.inr ⟨hnacc2, n, List.mem_cons.mpr (Or.inr hn), hv⟩

theorem scanFrontier_mem2of1 (e : Edges T) : ∀ (fr : List T) (acc : Finset T) (disc : List T) (x : T),
    x ∈ (scanFrontier e acc disc fr).1 → x ∈ acc ∨ x ∈ (scanFrontier e acc disc fr).2 := by
  intro fr
  induction fr with
  | nil => intro acc disc x hx; exact Or.inl hx
  | cons next rest ih =>
    intro acc disc x hx
    rw [scanFrontier] at hx ⊢
    rcases ih _ _ x hx with h | h
    · rcases scanDeps_mem2of1 (iterList (e.val next)) acc disc x h with h | h
      · exact Or.inl h
      · exact Or.inr (scanFrontier_disc_mono e rest _ _ x h)
    · exact Or.inr h

theorem scanFrontier_disc_sub (e : Edges T) : ∀ (fr : List T) (acc : Finset T) (disc : List T) (x : T),
    x ∈ (scanFrontier e acc disc fr).2 → x ∈ disc ∨ x ∈ (scanFrontier e acc disc fr).1 := by
  intro fr
  induction fr with
  | nil => intro acc disc x hx; exact Or.inl hx
  | cons next rest ih =>
    intro acc disc x hx
    rw [scanFrontier] at hx ⊢
    rcases ih _ _ x hx with h | h
    · rcases scanDeps_disc_sub (iterList (e.val next)) acc disc x h with h | h
      · exact Or.inl h
      · exact Or.inr (scanFrontier_acc_subset e rest _ _ h)
    · exact Or.inr h

theorem scanFrontier_card (e : Edges T) : ∀ (fr : List T) (acc : Finset T) (disc : List T),
    (scanFrontier e acc disc fr).1.card + disc.length =
      acc.card + (scanFrontier e acc disc fr).2.length := by
  intro fr
  induction fr with
  | nil => intro acc disc; rw [scanFrontier]
  | cons next rest ih =>
    intro acc disc
    rw [scanFrontier]
    have h1 := ih (scanDeps acc disc (iterList (e.val next))).1 (scanDeps acc disc (iterList (e.val next))).2
    have h2 := scanDeps_card (iterList (e.val next)) acc disc
    omega

theorem bfsAux_acc_subset (e : Edges T) : ∀ (fuel : Nat) (acc : Finset T) (fr : List T),
    acc ⊆ bfsAux e fuel acc fr := by
  intro fuel
  induction fuel with
  | zero => intro acc fr; exact fun x hx => hx
  | succ fuel ih =>
    intro acc fr
    rw [bfsAux]
    by_cases hfr : fr = []
    · rw [if_pos hfr]
    · rw [if_neg hfr]
      exact fun x hx => ih _ _ (scanFrontier_acc_subset e fr acc [] hx)

theorem bfsAux_sound (e : Edges T) (a : T) : ∀ (fuel : Nat) (acc : Finset T) (fr : List T),
    (∀ x ∈ acc, Relation.TransGen (EdgeStep e) a x) →
    (∀ x ∈ fr, x = a ∨ Relation.TransGen (EdgeStep e) a x) →
    ∀ b ∈ bfsAux e fuel acc fr, Relation.TransGen (EdgeStep e) a b := by
  intro fuel
  induction fuel with
  | zero => intro acc fr hacc _ b hb; exact hacc b hb
  | succ fuel ih =>
    intro acc fr hacc hfr b hb
    rw [bfsAux] at hb
    by_cases hfre : fr = []
    · rw [if_pos hfre] at hb
      exact hacc b hb
    · rw [if_neg hfre] at hb
      have hacc2 : ∀ x ∈ (scanFrontier e acc [] fr).1, Relation.TransGen (EdgeStep e) a x := by
        intro x hx
        rcases (scanFrontier_acc_mem e fr acc [] x).mp hx with h | ⟨n, hn, hv⟩
        · exact hacc x h
        · rcases hfr n hn with rfl | h
          · exact Relation.TransGen.single hv
          · exact Relation.TransGen.tail h hv
      have hfr2 : ∀ x ∈ (scanFrontier e acc [] fr).2, x = a ∨ Relation.TransGen (EdgeStep e) a x := by
        intro x hx
        rcases scanFrontier_disc_sub e fr acc [] x hx with h | h
        · exact absurd h (List.not_mem_nil x)
        · exact Or.inr (hacc2 x h)
      exact ih _ _ hacc2 hfr2 b hb

theorem bfsAux_closed (e : Edges T) (a : T) : ∀ (fuel : Nat) (acc : Finset T) (fr : List T),
    (e.searchUniv \ acc).card * 2 + (if fr = [] then 0 else 1) + 1 ≤ fuel →
    (∀ x, (x = a ∨ x ∈ acc) → x ∈ fr ∨ ∀ y ∈ e.val x, y ∈ acc) →
    ∀ x, (x = a ∨ x ∈ bfsAux e fuel acc fr) →
      ∀ y ∈ e.val x, y ∈ bfsAux e fuel acc fr := by
  intro fuel
  induction fuel with
  | zero => intro acc fr hfuel; omega
  | succ fuel ih =>
    intro acc fr hfuel hinv
    rw [bfsAux]
    by_cases hfre : fr = []
    · rw [if_pos hfre]
      intro x hx y hy
      rcases hinv x hx with h | h
      · rw [hfre] at h
        exact absurd h (List.not_mem_nil x)
      · exact h y hy
    · rw [if_neg hfre]
      have hsub : acc ⊆ (scanFrontier e acc [] fr).1 := scanFrontier_acc_subset e fr acc []
      have hinv2 : ∀ x, (x = a ∨ x ∈ (scanFrontier e acc [] fr).1) →
          x ∈ (scanFrontier e acc [] fr).2 ∨
            ∀ y ∈ e.val x, y ∈ (scanFrontier e acc [] fr).1 := by
        intro x hx
        by_cases hxacc : x = a ∨ x ∈ acc
        · rcases hinv x hxacc with h | h
          · refine Or.inr fun y hy => ?_
            exact (scanFrontier_acc_mem e fr acc [] y).mpr (Or.inr ⟨x, h, hy⟩)
          · exact Or.inr fun y hy => hsub (h y hy)
        · push_neg at hxacc
          rcases hx with rfl | hx
          · exact absurd rfl hxacc.1
          · rcases scanFrontier_mem2of1 e fr acc [] x hx with h | h
            · exact absurd h hxacc.2
            · exact Or.inl h
      have hfuel2 : (e.searchUniv \ (scanFrontier e acc [] fr).1).card * 2 +
          (if (scanFrontier e acc [] fr).2 = [] then 0 else 1) + 1 ≤ fuel := by
        by_cases hd : (scanFrontier e acc [] fr).2 = []
        · have hcard := scanFrontier_card e fr acc []
          rw [hd] at hcard
          simp at hcard
          have heq : (scanFrontier e acc [] fr).1 = acc :=
            (Finset.eq_of_subset_of_card_le hsub (le_of_eq hcard)).symm
          rw [if_pos hd, heq]
          rw [if_neg hfre] at hfuel
          omega
        · rw [if_neg hd]
          obtain ⟨x, hx⟩ := List.exists_mem_of_ne_nil _ hd
          rcases scanFrontier_disc_mem e fr acc [] x hx with h | ⟨hnacc, n, hn, hv⟩
          · exact absurd h (List.not_mem_nil x)
          · have hx1 : x ∈ (scanFrontier e acc [] fr).1 := by
              rcases scanFrontier_disc_sub e fr acc [] x hx with h | h
              · exact absurd h (List.not_mem_nil x)
              · exact h
            have hxU : x ∈ e.searchUniv := mem_searchUniv hv
            have hss : e.searchUniv \ (scanFrontier e acc [] fr).1 ⊂ e.searchUniv \ acc := by
              refine Finset.ssubset_iff_of_subset (Finset.sdiff_subset_sdiff le_rfl hsub) |>.mpr ?_
              exact ⟨x, Finset.mem_sdiff.mpr ⟨hxU, hnacc⟩,
                fun hmem => (Finset.mem_sdiff.mp hmem).2 hx1⟩
            have hlt := Finset.card_lt_card hss
            rw [if_neg hfre] at hfuel
            omega
      exact ih _ _ hfuel2 hinv2

theorem transGen_mem_of_closed (e : Edges T) (a : T) (S : Finset T)
    (hclosed : ∀ x, (x = a ∨ x ∈ S) → ∀ y ∈ e.val x, y ∈ S) :
    ∀ b, Relation.TransGen (EdgeStep e) a b → b ∈ S := by
  intro b hb
  induction hb with
  | single h => exact hclosed a (Or.inl rfl) _ h
  | tail hac hcb ih => exact hclosed _ (Or.inr ih) _ hcb

/-- The fueled BFS from `a` computes exactly the set of nodes transitively
reachable from `a`. -/
theorem mem_bfsAux_iff (e : Edges T) (a b : T) :
    b ∈ bfsAux e e.bfsFuel ∅ [a] ↔ Relation.TransGen (EdgeStep e) a b := by
  constructor
  · intro hb
    refine bfsAux_sound e a e.bfsFuel ∅ [a] (fun x hx => absurd hx (Finset.not_mem_empty x))
      (fun x hx => ?_) b hb
    rw [List.mem_singleton] at hx
    exact Or.inl hx
  · intro hb
    have hfuel : (e.searchUniv \ (∅ : Finset T)).card * 2 +
        (if ([a] : List T) = [] then 0 else 1) + 1 ≤ e.bfsFuel := by
      rw [Edges.bfsFuel]
      simp
      omega
    have hinv : ∀ x, (x = a ∨ x ∈ (∅ : Finset T)) →
        x ∈ [a] ∨ ∀ y ∈ e.val x, y ∈ (∅ : Finset T) := by
      intro x hx
      rcases hx with rfl | hx
      · exact Or.inl (List.mem_singleton.mpr rfl)
      · exact absurd hx (Finset.not_mem_empty x)
    exact transGen_mem_of_closed e a _ (bfsAux_closed e a e.bfsFuel ∅ [a] hfuel hinv) b hb

/-- Bridge between the Go `DependsOn` query and transitive reachability over
the Dependency Index. -/
theorem dependsOn_iff (g : Graph T) (a b : T) :
    g.DependsOn a b = true ↔ a ∈ g.nodes ∧ Relation.TransGen (DepRel g) a b := by
  rw [Graph.DependsOn, Graph.Dependencies]
  by_cases ha : a ∈ g.nodes
  · rw [if_pos ha]
    simp only [decide_eq_true_eq]
    rw [mem_bfsAux_iff, depRel_eq_edgeStep]
    exact ⟨fun h => ⟨ha, h⟩, fun h => h.2⟩
  · rw [if_neg ha]
    simp only [Bool.false_eq_true, false_iff]
    exact fun h => ha h.1

/-- Bridge for the Go `Dependents` query. -/
theorem mem_dependents_iff (g : Graph T) (a b : T) (ha : a ∈ g.nodes) (s : Finset T)
    (hs : g.Dependents a = some s) :
    b ∈ s ↔ Relation.TransGen (DptRel g) a b := by
  rw [Graph.Dependents, if_pos ha] at hs
  obtain rfl : bfsAux g.dependents g.dependents.bfsFuel ∅ [a] = s := Option.some.inj hs
  rw [mem_bfsAux_iff, dptRel_eq_edgeStep]

/-! ### Characterization and invariant preservation of `Depend` -/

theorem exists_first_step {r : T → T → Prop} {a b : T}
    (h : Relation.TransGen r a b) : ∃ c, r a c := by
  induction h with
  | single h => exact ⟨_, h⟩
  | tail _ _ ih => exact ih

theorem transGen_mem_nodes {g : Graph T} {a b : T} (hInv : Inv g)
    (h : Relation.TransGen (DepRel g) a b) : a ∈ g.nodes := by
  obtain ⟨c, hc⟩ := exists_first_step h
  exact hInv.depKeys a (Edges.mem_keys_of_val_ne (Finset.ne_empty_of_mem hc))

/-- A transitive path using one extra edge `x -> y` either avoids the new edge
or splits at it. -/
theorem transGen_union_decomp {r : T → T → Prop} {x y a b : T}
    (h : Relation.TransGen (fun u v => r u v ∨ (u = x ∧ v = y)) a b) :
    Relation.TransGen r a b ∨
      (Relation.ReflTransGen r a x ∧ Relation.ReflTransGen r y b) := by
  induction h with
  | single h =>
    rcases h with h | ⟨rfl, rfl⟩
    · exact Or.inl (Relation.TransGen.single h)
    · exact Or.inr ⟨Relation.ReflTransGen.refl, Relation.ReflTransGen.refl⟩
  | tail hac hcb ih =>
    rcases hcb with hcb | ⟨rfl, rfl⟩
    · rcases ih with h | ⟨h1, h2⟩
      · exact Or.inl (Relation.TransGen.tail h hcb)
      · exact Or.inr ⟨h1, Relation.ReflTransGen.tail h2 hcb⟩
    · rcases ih with h | ⟨h1, _⟩
      · exact Or.inr ⟨h.to_reflTransGen, Relation.ReflTransGen.refl⟩
      · exact Or.inr ⟨h1, Relation.ReflTransGen.refl⟩

/-- The empty graph satisfies the invariants. -/
theorem inv_new : Inv (New T) := by
  refine ⟨?_, ?_, ?_, ?_, ?_, ?_, ?_, ?_, ?_⟩
  · intro k hk; exact absurd hk (Finset.not_mem_empty k)
  · intro k v hv; exact absurd hv (Finset.not_mem_empty v)
  · intro k hk; exact absurd hk (Finset.not_mem_empty k)
  · intro k v hv; exact absurd hv (Finset.not_mem_empty v)
  · intro a b
    constructor
    · intro h; exact absurd h (Finset.not_mem_empty b)
    · intro h; exact absurd h (Finset.not_mem_empty a)
  · intro a h; exact absurd h (Finset.not_mem_empty a)
  · intro a h
    obtain ⟨c, hc⟩ := exists_first_step h
    exact absurd hc (Finset.not_mem_empty c)
  · intro k hk; exact absurd hk (Finset.not_mem_empty k)
  · intro k hk; exact absurd hk (Finset.not_mem_empty k)

theorem depend_ok_inversion {g g2 : Graph T} {x y : T} (h : g.Depend x y = .ok g2) :
    x ≠ y ∧ g.DependsOn y x = false ∧
      g2 = ⟨insert x (insert y g.nodes), addToDep g.dependents y x,
        addToDep g.dependencies x y⟩ := by
  rw [Graph.Depend] at h
  by_cases hxy : x = y
  · rw [if_pos hxy] at h
    cases h
  · rw [if_neg hxy] at h
    cases hc : g.DependsOn y x with
    | true => rw [hc] at h; simp at h
    | false =>
      rw [hc] at h
      simp only [Bool.false_eq_true, if_false] at h
      exact ⟨hxy, rfl, (Except.ok.inj h).symm⟩

theorem depend_error_self_iff (g : Graph T) (x y : T) :
    g.Depend x y = .error .ErrDependsOnSelf ↔ x = y := by
  rw [Graph.Depend]
  by_cases hxy : x = y
  · rw [if_pos hxy]
    simp [hxy]
  · rw [if_neg hxy]
    cases hc : g.DependsOn y x with
    | true => simp [hxy]
    | false => simp [hxy]

theorem depend_error_circular_iff (g : Graph T) (x y : T) (hxy : x ≠ y) :
    g.Depend x y = .error .ErrCircularDependency ↔ g.DependsOn y x = true := by
  rw [Graph.Depend, if_neg hxy]
  cases hc : g.DependsOn y x with
  | true => simp
  | false => simp

/-- The edge relation of the graph produced by a successful `Depend` is the
old relation plus the edge `x -> y`. -/
theorem depend_ok_depRel {g g2 : Graph T} {x y : T} (h : g.Depend x y = .ok g2) :
    ∀ a b, (b ∈ g2.dependencies.val a ↔ b ∈ g.dependencies.val a ∨ (a = x ∧ b = y)) := by
  obtain ⟨hxy, hc, rfl⟩ := depend_ok_inversion h
  intro a b
  rw [addToDep_val]
  by_cases ha : a = x
  · subst ha
    rw [if_pos rfl, Finset.mem_insert]
    tauto
  · rw [if_neg ha]
    tauto

theorem depend_ok_dptRel {g g2 : Graph T} {x y : T} (h : g.Depend x y = .ok g2) :
    ∀ a b, (b ∈ g2.dependents.val a ↔ b ∈ g.dependents.val a ∨ (a = y ∧ b = x)) := by
  obtain ⟨hxy, hc, rfl⟩ := depend_ok_inversion h
  intro a b
  rw [addToDep_val]
  by_cases ha : a = y
  · subst ha
    rw [if_pos rfl, Finset.mem_insert]
    tauto
  · rw [if_neg ha]
    tauto

/-- A successful `Depend` preserves all five invariants; acyclicity holds
because the reverse reachability query rejected a path from `y` back to `x`. -/
theorem depend_ok_inv {g g2 : Graph T} {x y : T} (hInv : Inv g)
    (h : g.Depend x y = .ok g2) : Inv g2 := by
  have hrel := depend_ok_depRel h
  have hrelT := depend_ok_dptRel h
  obtain ⟨hxy, hc, heq⟩ := depend_ok_inversion h
  have hnodes : g2.nodes = insert x (insert y g.nodes) := by rw [heq]
  have hdepKeys : g2.dependencies.keys = insert x g.dependencies.keys := by rw [heq]; rfl
  have hdptKeys : g2.dependents.keys = insert y g.dependents.keys := by rw [heq]; rfl
  have hdepVal : ∀ k, g2.dependencies.val k =
      if k = x then insert y (g.dependencies.val x) else g.dependencies.val k := by
    intro k; rw [heq]; rfl
  have hdptVal : ∀ k, g2.dependents.val k =
      if k = y then insert x (g.dependents.val y) else g.dependents.val k := by
    intro k; rw [heq]; rfl
  have hnc : ¬ Relation.TransGen (DepRel g) y x := by
    intro hyx
    have : g.DependsOn y x = true :=
      (dependsOn_iff g y x).mpr ⟨transGen_mem_nodes hInv hyx, hyx⟩
    rw [hc] at this
    cases this
  have hacy2 : ∀ a, ¬ Relation.TransGen (DepRel g2) a a := by
    intro a ha
    have hmono : Relation.TransGen (fun u v => DepRel g u v ∨ (u = x ∧ v = y)) a a := by
      refine Relation.TransGen.mono ?_ ha
      intro u v huv
      exact (hrel u v).mp huv
    rcases transGen_union_decomp hmono with h1 | ⟨h1, h2⟩
    · exact hInv.acyclic a h1
    · have hyx : Relation.ReflTransGen (DepRel g) y x := h2.trans h1
      rcases Relation.reflTransGen_iff_eq_or_transGen.mp hyx with h3 | h3
      · exact hxy h3
      · exact hnc h3
  refine ⟨?_, ?_, ?_, ?_, ?_, ?_, hacy2, ?_, ?_⟩
  · intro k hk
    rw [hdepKeys] at hk
    rw [hnodes]
    rcases Finset.mem_insert.mp hk with rfl | hk
    · exact Finset.mem_insert_self k _
    · exact Finset.mem_insert_of_mem (Finset.mem_insert_of_mem (hInv.depKeys k hk))
  · intro k v hv
    rw [hnodes]
    rcases (hrel k v).mp hv with h1 | ⟨rfl, rfl⟩
    · exact Finset.mem_insert_of_mem (Finset.mem_insert_of_mem (hInv.depVals k v h1))
    · exact Finset.mem_insert_of_mem (Finset.mem_insert_self v _)
  · intro k hk
    rw [hdptKeys] at hk
    rw [hnodes]
    rcases Finset.mem_insert.mp hk with rfl | hk
    · exact Finset.mem_insert_of_mem (Finset.mem_insert_self k _)
    · exact Finset.mem_insert_of_mem (Finset.mem_insert_of_mem (hInv.dptKeys k hk))
  · intro k v hv
    rw [hnodes]
    rcases (hrelT k v).mp hv with h1 | ⟨rfl, rfl⟩
    · exact Finset.mem_insert_of_mem (Finset.mem_insert_of_mem (hInv.dptVals k v h1))
    · exact Finset.mem_insert_self v _
  · intro a b
    rw [hrel a b, hrelT b a, hInv.symm a b]
    tauto
  · intro a ha
    rcases (hrel a a).mp ha with h1 | ⟨h1, h2⟩
    · exact hInv.irrefl a h1
    · exact hxy (h1 ▸ h2)
  · intro k hk
    rw [hdepKeys] at hk
    rw [hdepVal]
    by_cases hkx : k = x
    · rw [if_pos hkx]
      exact fun hemp => (Finset.insert_ne_empty y _) hemp
    · rw [if_neg hkx]
      rcases Finset.mem_insert.mp hk with h1 | h1
      · exact absurd h1 hkx
      · exact hInv.depNonempty k h1
  · intro k hk
    rw [hdptKeys] at hk
    rw [hdptVal]
    by_cases hky : k = y
    · rw [if_pos hky]
      exact fun hemp => (Finset.insert_ne_empty x _) hemp
    · rw [if_neg hky]
      rcases Finset.mem_insert.mp hk with h1 | h1
      · exact absurd h1 hky
      · exact hInv.dptNonempty k h1

/-- Re-inserting an existing edge is a no-op on the whole state. -/
theorem depend_ok_noop {g g2 : Graph T} {x y : T} (hInv : Inv g)
    (h : g.Depend x y = .ok g2) (hedge : y ∈ g.dependencies.val x) : g2 = g := by
  obtain ⟨hxy, hc, rfl⟩ := depend_ok_inversion h
  have hxkeys : x ∈ g.dependencies.keys :=
    Edges.mem_keys_of_val_ne (Finset.ne_empty_of_mem hedge)
  have hxy2 : x ∈ g.dependents.val y := (hInv.symm x y).mp hedge
  have hykeys : y ∈ g.dependents.keys :=
    Edges.mem_keys_of_val_ne (Finset.ne_empty_of_mem hxy2)
  have hxnodes : x ∈ g.nodes := hInv.depKeys x hxkeys
  have hynodes : y ∈ g.nodes := hInv.depVals x y hedge
  refine Graph.ext_fields ?_ ?_ ?_
  · rw [Finset.insert_eq_self.mpr (Finset.mem_insert_of_mem hxnodes)]
    exact Finset.insert_eq_self.mpr hynodes
  · refine Edges.ext_keys_val ?_ ?_
    · rw [addToDep_keys]
      exact Finset.insert_eq_self.mpr hykeys
    · intro k
      rw [addToDep_val]
      by_cases hk : k = y
      · subst hk
        rw [if_pos rfl, Finset.insert_eq_self.mpr hxy2]
      · rw [if_neg hk]
  · refine Edges.ext_keys_val ?_ ?_
    · rw [addToDep_keys]
      exact Finset.insert_eq_self.mpr hxkeys
    · intro k
      rw [addToDep_val]
      by_cases hk : k = x
      · subst hk
        rw [if_pos rfl, Finset.insert_eq_self.mpr hedge]
      · rw [if_neg hk]

/-! ### Characterization and invariant preservation of `Undepend` -/

theorem undepend_error_iff (g : Graph T) (x y : T) :
    g.Undepend x y = .error .ErrNoSuchDependency ↔ y ∉ g.dependencies.val x := by
  rw [Graph.Undepend, Graph.DependsOnDirectly, Edges.Contains]
  by_cases hd : y ∈ g.dependencies.val x
  · simp [hd]
  · simp [hd]

theorem undepend_ok_of_mem {g : Graph T} {x y : T} (hd : y ∈ g.dependencies.val x) :
    g.Undepend x y = .ok
      { g with
        dependents := removeFromDep g.dependents y x
        dependencies := removeFromDep g.dependencies x y } := by
  rw [Graph.Undepend, Graph.DependsOnDirectly, Edges.Contains]
  simp [hd]

theorem undepend_ok_inversion {g g2 : Graph T} {x y : T} (h : g.Undepend x y = .ok g2) :
    y ∈ g.dependencies.val x ∧
      g2 = { g with
        dependents := removeFromDep g.dependents y x
        dependencies := removeFromDep g.dependencies x y } := by
  rw [Graph.Undepend, Graph.DependsOnDirectly, Edges.Contains] at h
  by_cases hd : y ∈ g.dependencies.val x
  · simp only [hd, decide_true_eq_true, if_true] at h
    exact ⟨hd, (Except.ok.inj h).symm⟩
  · simp [hd] at h

theorem undepend_ok_nodes {g g2 : Graph T} {x y : T} (h : g.Undepend x y = .ok g2) :
    g2.nodes = g.nodes := by
  obtain ⟨_, rfl⟩ := undepend_ok_inversion h
  rfl

theorem undepend_ok_depRel {g g2 : Graph T} {x y : T} (h : g.Undepend x y = .ok g2) :
    ∀ a b, (b ∈ g2.dependencies.val a ↔ b ∈ g.dependencies.val a ∧ ¬(a = x ∧ b = y)) := by
  obtain ⟨hd, rfl⟩ := undepend_ok_inversion h
  intro a b
  rw [removeFromDep_val]
  by_cases ha : a = x
  · subst ha
    rw [if_pos rfl, Finset.mem_erase]
    tauto
  · rw [if_neg ha]
    tauto

theorem undepend_ok_dptRel {g g2 : Graph T} {x y : T} (h : g.Undepend x y = .ok g2) :
    ∀ a b, (b ∈ g2.dependents.val a ↔ b ∈ g.dependents.val a ∧ ¬(a = y ∧ b = x)) := by
  obtain ⟨hd, rfl⟩ := undepend_ok_inversion h
  intro a b
  rw [removeFromDep_val]
  by_cases ha : a = y
  · subst ha
    rw [if_pos rfl, Finset.mem_erase]
    tauto
  · rw [if_neg ha]
    tauto

theorem undepend_ok_inv {g g2 : Graph T} {x y : T} (hInv : Inv g)
    (h : g.Undepend x y = .ok g2) : Inv g2 := by
  have hrel := undepend_ok_depRel h
  have hrelT := undepend_ok_dptRel h
  have hnodes := undepend_ok_nodes h
  obtain ⟨hd, heq⟩ := undepend_ok_inversion h
  have hdepKeys : g2.dependencies.keys ⊆ g.dependencies.keys := by
    rw [heq]
    exact removeFromDep_keys_subset g.dependencies x y
  have hdptKeys : g2.dependents.keys ⊆ g.dependents.keys := by
    rw [heq]
    exact removeFromDep_keys_subset g.dependents y x
  refine ⟨?_, ?_, ?_, ?_, ?_, ?_, ?_, ?_, ?_⟩
  · intro k hk
    rw [hnodes]
    exact hInv.depKeys k (hdepKeys hk)
  · intro k v hv
    rw [hnodes]
    exact hInv.depVals k v ((hrel k v).mp hv).1
  · intro k hk
    rw [hnodes]
    exact hInv.dptKeys k (hdptKeys hk)
  · intro k v hv
    rw [hnodes]
    exact hInv.dptVals k v ((hrelT k v).mp hv).1
  · intro a b
    rw [hrel a b, hrelT b a, hInv.symm a b]
    tauto
  · intro a ha
    exact hInv.irrefl a ((hrel a a).mp ha).1
  · intro a ha
    refine hInv.acyclic a (Relation.TransGen.mono ?_ ha)
    intro u v huv
    exact ((hrel u v).mp huv).1
  · intro k hk
    rw [heq]
    refine removeFromDep_nonempty g.dependencies x y hInv.depNonempty k ?_
    rw [heq] at hk
    exact hk
  · intro k hk
    rw [heq]
    refine removeFromDep_nonempty g.dependents y x hInv.dptNonempty k ?_
    rw [heq] at hk
    exact hk

theorem undepend_ok_edgeCount {g g2 : Graph T} {x y : T} (h : g.Undepend x y = .ok g2) :
    edgeCount g2.dependencies + 1 = edgeCount g.dependencies := by
  obtain ⟨hd, rfl⟩ := undepend_ok_inversion h
  exact edgeCount_removeFromDep g.dependencies x y hd

/-! ### Characterization and invariant preservation of `Delete` -/

theorem delete_nodes (g : Graph T) (t : T) : (g.Delete t).nodes = g.nodes.erase t := rfl

theorem delete_dependents_def (g : Graph T) (t : T) :
    (g.Delete t).dependents =
      ((iterList (g.dependencies.val t)).foldl
        (fun e dependency => removeFromDep e dependency t) g.dependents).eraseKey t := rfl

theorem delete_dependencies_def (g : Graph T) (t : T) :
    (g.Delete t).dependencies =
      (iterList (((iterList (g.dependencies.val t)).foldl
        (fun e dependency => removeFromDep e dependency t) g.dependents).val t)).foldl
        (fun e dependent => removeFromDep e dependent t) (g.dependencies.eraseKey t) := rfl

theorem delete_dpt1_val (g : Graph T) (t k : T) :
    ((iterList (g.dependencies.val t)).foldl
      (fun e dependency => removeFromDep e dependency t) g.dependents).val k =
      if k ∈ g.dependencies.val t then (g.dependents.val k).erase t
      else g.dependents.val k := by
  rw [foldRemove_val]
  by_cases hk : k ∈ g.dependencies.val t
  · rw [if_pos (mem_iterList.mpr hk), if_pos hk]
  · rw [if_neg (fun hm => hk (mem_iterList.mp hm)), if_neg hk]

/-- Membership in the Dependency Index after `Delete` (uses symmetry and
irreflexivity of the source graph). -/
theorem delete_depRel (g : Graph T) (t : T) (hInv : Inv g) :
    ∀ a b, (b ∈ (g.Delete t).dependencies.val a ↔
      b ∈ g.dependencies.val a ∧ a ≠ t ∧ b ≠ t) := by
  intro a b
  have hself : t ∉ g.dependencies.val t := hInv.irrefl t
  have hdpt1t : ((iterList (g.dependencies.val t)).foldl
      (fun e dependency => removeFromDep e dependency t) g.dependents).val t
      = g.dependents.val t := by
    rw [delete_dpt1_val, if_neg hself]
  rw [delete_dependencies_def, foldRemove_val, hdpt1t, eraseKey_val]
  by_cases hat : a = t
  · have hnota : a ∉ iterList (g.dependents.val t) := by
      rw [mem_iterList]
      intro hm
      have h2 : t ∈ g.dependencies.val a := (hInv.symm a t).mpr hm
      rw [hat] at h2
      exact hself h2
    rw [if_neg hnota, if_pos hat]
    constructor
    · intro hb
      exact absurd hb (Finset.not_mem_empty b)
    · rintro ⟨_, hat2, _⟩
      exact absurd hat hat2
  · by_cases hmem : a ∈ iterList (g.dependents.val t)
    · rw [if_pos hmem, if_neg hat, Finset.mem_erase]
      tauto
    · rw [if_neg hmem, if_neg hat]
      rw [mem_iterList] at hmem
      have hbt : b ∈ g.dependencies.val a → b ≠ t := by
        intro hb hbt2
        rw [hbt2] at hb
        exact hmem ((hInv.symm a t).mp hb)
      tauto

/-- Membership in the Dependent Index after `Delete`. -/
theorem delete_dptRel (g : Graph T) (t : T) (hInv : Inv g) :
    ∀ a b, (b ∈ (g.Delete t).dependents.val a ↔
      b ∈ g.dependents.val a ∧ a ≠ t ∧ b ≠ t) := by
  intro a b
  rw [delete_dependents_def, eraseKey_val, delete_dpt1_val]
  by_cases hat : a = t
  · rw [if_pos hat]
    constructor
    · intro hb
      exact absurd hb (Finset.not_mem_empty b)
    · rintro ⟨_, hat2, _⟩
      exact absurd hat hat2
  · rw [if_neg hat]
    by_cases hmem : a ∈ g.dependencies.val t
    · rw [if_pos hmem, Finset.mem_erase]
      tauto
    · rw [if_neg hmem]
      have hbt : b ∈ g.dependents.val a → b ≠ t := by
        intro hb hbt2
        rw [hbt2] at hb
        exact hmem ((hInv.symm t a).mpr hb)
      tauto

theorem delete_dependencies_keys_subset (g : Graph T) (t : T) :
    (g.Delete t).dependencies.keys ⊆ g.dependencies.keys.erase t := by
  rw [delete_dependencies_def]
  intro k hk
  have := foldRemove_keys_subset t _ (g.dependencies.eraseKey t) hk
  rw [eraseKey_keys] at this
  exact this

theorem delete_dependents_keys_subset (g : Graph T) (t : T) :
    (g.Delete t).dependents.keys ⊆ g.dependents.keys.erase t := by
  rw [delete_dependents_def]
  intro k hk
  rw [Edges.eraseKey] at hk
  simp only at hk
  obtain ⟨hne, hmem⟩ := Finset.mem_erase.mp hk
  exact Finset.mem_erase.mpr ⟨hne, foldRemove_keys_subset t _ g.dependents hmem⟩

theorem delete_inv (g : Graph T) (t : T) (hInv : Inv g) : Inv (g.Delete t) := by
  have hrel := delete_depRel g t hInv
  have hrelT := delete_dptRel g t hInv
  refine ⟨?_, ?_, ?_, ?_, ?_, ?_, ?_, ?_, ?_⟩
  · intro k hk
    obtain ⟨hne, hmem⟩ := Finset.mem_erase.mp (delete_dependencies_keys_subset g t hk)
    rw [delete_nodes]
    exact Finset.mem_erase.mpr ⟨hne, hInv.depKeys k hmem⟩
  · intro k v hv
    obtain ⟨h1, _, h3⟩ := (hrel k v).mp hv
    rw [delete_nodes]
    exact Finset.mem_erase.mpr ⟨h3, hInv.depVals k v h1⟩
  · intro k hk
    obtain ⟨hne, hmem⟩ := Finset.mem_erase.mp (delete_dependents_keys_subset g t hk)
    rw [delete_nodes]
    exact Finset.mem_erase.mpr ⟨hne, hInv.dptKeys k hmem⟩
  · intro k v hv
    obtain ⟨h1, _, h3⟩ := (hrelT k v).mp hv
    rw [delete_nodes]
    exact Finset.mem_erase.mpr ⟨h3, hInv.dptVals k v h1⟩
  · intro a b
    rw [hrel a b, hrelT b a, hInv.symm a b]
    tauto
  · intro a ha
    exact hInv.irrefl a ((hrel a a).mp ha).1
  · intro a ha
    refine hInv.acyclic a (Relation.TransGen.mono ?_ ha)
    intro u v huv
    exact ((hrel u v).mp huv).1
  · rw [delete_dependencies_def]
    exact foldRemove_nonempty t _ (g.dependencies.eraseKey t)
      (eraseKey_nonempty g.dependencies t hInv.depNonempty)
  · rw [delete_dependents_def]
    exact eraseKey_nonempty _ t
      (foldRemove_nonempty t _ g.dependents hInv.dptNonempty)

/-! ### `Remove` -/

theorem remove_error_iff (g : Graph T) (t : T) :
    g.Remove t = .error .ErrDependentExists ↔ t ∈ g.dependents.keys := by
  rw [Graph.Remove, Edges.ContainsKey]
  by_cases hk : t ∈ g.dependents.keys
  · simp [hk]
  · simp [hk]

theorem remove_ok_iff (g : Graph T) (t : T) :
    g.Remove t = .ok (g.Delete t) ↔ t ∉ g.dependents.keys := by
  rw [Graph.Remove, Edges.ContainsKey]
  by_cases hk : t ∈ g.dependents.keys
  · simp [hk]
  · simp [hk]

theorem remove_ok_inversion {g g2 : Graph T} {t : T} (h : g.Remove t = .ok g2) :
    t ∉ g.dependents.keys ∧ g2 = g.Delete t := by
  rw [Graph.Remove, Edges.ContainsKey] at h
  by_cases hk : t ∈ g.dependents.keys
  · simp [hk] at h
  · simp only [hk, decide_false_eq_false, if_false] at h
    exact ⟨hk, (Except.ok.inj h).symm⟩

/-- Under invariant 5, the Dependent Index has a key for `t` exactly when some
node still directly depends on `t`. -/
theorem dependents_key_iff_nonempty (g : Graph T) (t : T) (hInv : Inv g) :
    t ∈ g.dependents.keys ↔ (g.dependents.val t).Nonempty := by
  constructor
  · intro hk
    exact Finset.nonempty_iff_ne_empty.mpr (hInv.dptNonempty t hk)
  · intro ⟨x, hx⟩
    exact Edges.mem_keys_of_val_ne (Finset.ne_empty_of_mem hx)

/-! ### The severing loops of the removal cascades -/

theorem exceptToOption_ok (g : Graph T) : exceptToOption (.ok g) = some g := rfl

/-- Processing a duplicate-free list of direct dependents of `current` severs
exactly those edges, never panics, and enqueues the whole list. -/
theorem severDependents_spec (current : T) :
    ∀ (l : List T) (g : Graph T), Inv g → l.Nodup →
      (∀ d ∈ l, d ∈ g.dependents.val current) →
      ∃ g1, severDependents g current l = some (g1, l) ∧ Inv g1 ∧
        g1.nodes = g.nodes ∧
        edgeCount g1.dependencies + l.length = edgeCount g.dependencies ∧
        (∀ k, g1.dependents.val k =
          if k = current then g.dependents.val current \ l.toFinset
          else g.dependents.val k) ∧
        (∀ k, g1.dependencies.val k =
          if k ∈ l then (g.dependencies.val k).erase current
          else g.dependencies.val k) := by
  intro l
  induction l with
  | nil =>
    intro g hInv _ _
    refine ⟨g, rfl, hInv, rfl, by simp, ?_, ?_⟩
    · intro k
      by_cases hk : k = current
      · subst hk
        rw [if_pos rfl, List.toFinset_nil, Finset.sdiff_empty]
      · rw [if_neg hk]
    · intro k
      rw [if_neg (List.not_mem_nil k)]
  | cons d rest ih =>
    intro g hInv hnodup hmem
    have hd : d ∈ g.dependents.val current := hmem d (List.mem_cons_self d rest)
    have hedge : current ∈ g.dependencies.val d := (hInv.symm d current).mpr hd
    have hok := undepend_ok_of_mem hedge
    set g1 := { g with
      dependents := removeFromDep g.dependents current d
      dependencies := removeFromDep g.dependencies d current } with hg1
    have hInv1 : Inv g1 := undepend_ok_inv hInv hok
    have hrest : ∀ d2 ∈ rest, d2 ∈ g1.dependents.val current := by
      intro d2 hd2
      have hne : d2 ≠ d := fun he => (List.nodup_cons.mp hnodup).1 (he ▸ hd2)
      have : d2 ∈ g.dependents.val current := hmem d2 (List.mem_cons.mpr (Or.inr hd2))
      show d2 ∈ (removeFromDep g.dependents current d).val current
      rw [removeFromDep_val, if_pos rfl, Finset.mem_erase]
      exact ⟨hne, this⟩
    obtain ⟨g2, heq, hInv2, hnodes2, hec2, hdpt2, hdep2⟩ :=
      ih g1 hInv1 (List.nodup_cons.mp hnodup).2 hrest
    refine ⟨g2, ?_, hInv2, ?_, ?_, ?_, ?_⟩
    · rw [severDependents, hok, exceptToOption_ok, Option.some_bind, heq]
      rfl
    · rw [hnodes2]
    · have hec1 : edgeCount g1.dependencies + 1 = edgeCount g.dependencies :=
        undepend_ok_edgeCount hok
      rw [List.length_cons]
      omega
    · intro k
      rw [hdpt2 k]
      by_cases hk : k = current
      · subst hk
        rw [if_pos rfl, if_pos rfl]
        show (removeFromDep g.dependents k d).val k \ rest.toFinset = _
        rw [removeFromDep_val, if_pos rfl, List.toFinset_cons, Finset.erase_eq,
          sdiff_sdiff]
        congr 1
      · rw [if_neg hk, if_neg hk]
        show (removeFromDep g.dependents current d).val k = g.dependents.val k
        rw [removeFromDep_val, if_neg hk]
    · intro k
      rw [hdep2 k]
      by_cases hk : k ∈ rest
      · rw [if_pos hk, if_pos (List.mem_cons.mpr (Or.inr hk))]
        show ((removeFromDep g.dependencies d current).val k).erase current = _
        rw [removeFromDep_val]
        by_cases hkd : k = d
        · rw [if_pos hkd, hkd, Finset.erase_idem]
        · rw [if_neg hkd]
      · rw [if_neg hk]
        show (removeFromDep g.dependencies d current).val k = _
        rw [removeFromDep_val]
        by_cases hkd : k = d
        · rw [if_pos hkd, if_pos (List.mem_cons.mpr (Or.inl hkd)), hkd]
        · rw [if_neg hkd, if_neg (fun hm => (List.mem_cons.mp hm).elim hkd hk)]

/-- Processing a duplicate-free list of direct dependencies of `current` in
the `RemoveForce` variant severs exactly those edges and never panics. -/
theorem severDependenciesForce_spec (current : T) :
    ∀ (l : List T) (g : Graph T), Inv g → l.Nodup →
      (∀ d ∈ l, d ∈ g.dependencies.val current) →
      ∃ g2, severDependenciesForce g current l = some g2 ∧ Inv g2 ∧
        g2.nodes = g.nodes ∧
        edgeCount g2.dependencies + l.length = edgeCount g.dependencies ∧
        (∀ k, g2.dependencies.val k =
          if k = current then g.dependencies.val current \ l.toFinset
          else g.dependencies.val k) ∧
        (∀ k, g2.dependents.val k =
          if k ∈ l then (g.dependents.val k).erase current
          else g.dependents.val k) := by
  intro l
  induction l with
  | nil =>
    intro g hInv _ _
    refine ⟨g, rfl, hInv, rfl, by simp, ?_, ?_⟩
    · intro k
      by_cases hk : k = current
      · subst hk
        rw [if_pos rfl, List.toFinset_nil, Finset.sdiff_empty]
      · rw [if_neg hk]
    · intro k
      rw [if_neg (List.not_mem_nil k)]
  | cons d rest ih =>
    intro g hInv hnodup hmem
    have hd : d ∈ g.dependencies.val current := hmem d (List.mem_cons_self d rest)
    have hedge : current ∈ g.dependents.val d := (hInv.symm current d).mp hd
    have hkey : d ∈ g.dependents.keys :=
      Edges.mem_keys_of_val_ne (Finset.ne_empty_of_mem hedge)
    have hbool : g.dependents.ContainsKey d = true := by
      rw [Edges.ContainsKey]
      exact decide_eq_true hkey
    have hok := undepend_ok_of_mem hd
    set g1 := { g with
      dependents := removeFromDep g.dependents d current
      dependencies := removeFromDep g.dependencies current d } with hg1
    have hInv1 : Inv g1 := undepend_ok_inv hInv hok
    have hrest : ∀ d2 ∈ rest, d2 ∈ g1.dependencies.val current := by
      intro d2 hd2
      have hne : d2 ≠ d := fun he => (List.nodup_cons.mp hnodup).1 (he ▸ hd2)
      have : d2 ∈ g.dependencies.val current := hmem d2 (List.mem_cons.mpr (Or.inr hd2))
      show d2 ∈ (removeFromDep g.dependencies current d).val current
      rw [removeFromDep_val, if_pos rfl, Finset.mem_erase]
      exact ⟨hne, this⟩
    obtain ⟨g2, heq, hInv2, hnodes2, hec2, hdep2, hdpt2⟩ :=
      ih g1 hInv1 (List.nodup_cons.mp hnodup).2 hrest
    refine ⟨g2, ?_, hInv2, ?_, ?_, ?_, ?_⟩
    · rw [severDependenciesForce, if_pos hbool, hok, exceptToOption_ok, Option.some_bind, heq]
    · rw [hnodes2]
    · have hec1 : edgeCount g1.dependencies + 1 = edgeCount g.dependencies :=
        undepend_ok_edgeCount hok
      rw [List.length_cons]
      omega
    · intro k
      rw [hdep2 k]
      by_cases hk : k = current
      · subst hk
        rw [if_pos rfl, if_pos rfl]
        show (removeFromDep g.dependencies k d).val k \ rest.toFinset = _
        rw [removeFromDep_val, if_pos rfl, List.toFinset_cons, Finset.erase_eq,
          sdiff_sdiff]
        congr 1
      · rw [if_neg hk, if_neg hk]
        show (removeFromDep g.dependencies current d).val k = _
        rw [removeFromDep_val, if_neg hk]
    · intro k
      rw [hdpt2 k]
      by_cases hk : k ∈ rest
      · rw [if_pos hk, if_pos (List.mem_cons.mpr (Or.inr hk))]
        show ((removeFromDep g.dependents d current).val k).erase current = _
        rw [removeFromDep_val]
        by_cases hkd : k = d
        · rw [if_pos hkd, hkd, Finset.erase_idem]
        · rw [if_neg hkd]
      · rw [if_neg hk]
        show (removeFromDep g.dependents d current).val k = _
        rw [removeFromDep_val]
        by_cases hkd : k = d
        · rw [if_pos hkd, if_pos (List.mem_cons.mpr (Or.inl hkd)), hkd]
        · rw [if_neg hkd, if_neg (fun hm => (List.mem_cons.mp hm).elim hkd hk)]

/-- Processing a duplicate-free list of direct dependencies of `current` in
the `RemoveAutoRemove` variant severs exactly those edges, never panics, and
enqueues exactly the dependencies whose only dependent was `current`. -/
theorem severDependenciesAuto_spec (current : T) :
    ∀ (l : List T) (g : Graph T), Inv g → l.Nodup →
      (∀ d ∈ l, d ∈ g.dependencies.val current) →
      ∃ g2, severDependenciesAuto g current l = some (g2,
          l.filter fun d =>
            decide ((g.dependents.val d).card = 1 ∧ current ∈ g.dependents.val d)) ∧
        Inv g2 ∧
        g2.nodes = g.nodes ∧
        edgeCount g2.dependencies + l.length = edgeCount g.dependencies ∧
        (∀ k, g2.dependencies.val k =
          if k = current then g.dependencies.val current \ l.toFinset
          else g.dependencies.val k) ∧
        (∀ k, g2.dependents.val k =
          if k ∈ l then (g.dependents.val k).erase current
          else g.dependents.val k) := by
  intro l
  induction l with
  | nil =>
    intro g hInv _ _
    refine ⟨g, rfl, hInv, rfl, by simp, ?_, ?_⟩
    · intro k
      by_cases hk : k = current
      · subst hk
        rw [if_pos rfl, List.toFinset_nil, Finset.sdiff_empty]
      · rw [if_neg hk]
    · intro k
      rw [if_neg (List.not_mem_nil k)]
  | cons d rest ih =>
    intro g hInv hnodup hmem
    have hd : d ∈ g.dependencies.val current := hmem d (List.mem_cons_self d rest)
    have hedge : current ∈ g.dependents.val d := (hInv.symm current d).mp hd
    have hkey : d ∈ g.dependents.keys :=
      Edges.mem_keys_of_val_ne (Finset.ne_empty_of_mem hedge)
    have hbool : g.dependents.ContainsKey d = true := by
      rw [Edges.ContainsKey]
      exact decide_eq_true hkey
    have hok := undepend_ok_of_mem hd
    set g1 := { g with
      dependents := removeFromDep g.dependents d current
      dependencies := removeFromDep g.dependencies current d } with hg1
    have hInv1 : Inv g1 := undepend_ok_inv hInv hok
    have hrest : ∀ d2 ∈ rest, d2 ∈ g1.dependencies.val current := by
      intro d2 hd2
      have hne : d2 ≠ d := fun he => (List.nodup_cons.mp hnodup).1 (he ▸ hd2)
      have : d2 ∈ g.dependencies.val current := hmem d2 (List.mem_cons.mpr (Or.inr hd2))
      show d2 ∈ (removeFromDep g.dependencies current d).val current
      rw [removeFromDep_val, if_pos rfl, Finset.mem_erase]
      exact ⟨hne, this⟩
    obtain ⟨g2, heq, hInv2, hnodes2, hec2, hdep2, hdpt2⟩ :=
      ih g1 hInv1 (List.nodup_cons.mp hnodup).2 hrest
    have hfilter : (rest.filter fun d2 =>
        decide ((g1.dependents.val d2).card = 1 ∧ current ∈ g1.dependents.val d2)) =
        rest.filter fun d2 =>
          decide ((g.dependents.val d2).card = 1 ∧ current ∈ g.dependents.val d2) := by
      refine List.filter_congr ?_
      intro d2 hd2
      have hne : d2 ≠ d := fun he => (List.nodup_cons.mp hnodup).1 (he ▸ hd2)
      have hval : g1.dependents.val d2 = g.dependents.val d2 := by
        show (removeFromDep g.dependents d current).val d2 = _
        rw [removeFromDep_val, if_neg hne]
      rw [hval]
    refine ⟨g2, ?_, hInv2, ?_, ?_, ?_, ?_⟩
    · rw [severDependenciesAuto, if_pos hbool, hok, exceptToOption_ok, Option.some_bind,
        heq, hfilter]
      rw [List.filter_cons]
      by_cases hcond : (g.dependents.val d).card = 1 ∧ current ∈ g.dependents.val d
      · rw [if_pos (decide_eq_true hcond)]
        simp [hcond]
      · rw [if_neg (by simpa using hcond)]
        simp [hcond]
    · rw [hnodes2]
    · have hec1 : edgeCount g1.dependencies + 1 = edgeCount g.dependencies :=
        undepend_ok_edgeCount hok
      rw [List.length_cons]
      omega
    · intro k
      rw [hdep2 k]
      by_cases hk : k = current
      · subst hk
        rw [if_pos rfl, if_pos rfl]
        show (removeFromDep g.dependencies k d).val k \ rest.toFinset = _
        rw [removeFromDep_val, if_pos rfl, List.toFinset_cons, Finset.erase_eq,
          sdiff_sdiff]
        congr 1
      · rw [if_neg hk, if_neg hk]
        show (removeFromDep g.dependencies current d).val k = _
        rw [removeFromDep_val, if_neg hk]
    · intro k
      rw [hdpt2 k]
      by_cases hk : k ∈ rest
      · rw [if_pos hk, if_pos (List.mem_cons.mpr (Or.inr hk))]
        show ((removeFromDep g.dependents d current).val k).erase current = _
        rw [removeFromDep_val]
        by_cases hkd : k = d
        · rw [if_pos hkd, hkd, Finset.erase_idem]
        · rw [if_neg hkd]
      · rw [if_neg hk]
        show (removeFromDep g.dependents d current).val k = _
        rw [removeFromDep_val]
        by_cases hkd : k = d
        · rw [if_pos hkd, if_pos (List.mem_cons.mpr (Or.inl hkd)), hkd]
        · rw [if_neg hkd, if_neg (fun hm => (List.mem_cons.mp hm).elim hkd hk)]

/-! ### Path surgery for the removal cascades -/

theorem iterList_toFinset (s : Finset T) : (iterList s).toFinset = s := by
  ext x
  rw [List.mem_toFinset, mem_iterList]

theorem transGen_restrict_ne {r : T → T → Prop} {c q x : T}
    (h : Relation.TransGen (fun u v => r u v ∧ u ≠ c ∧ v ≠ c) q x) : x ≠ c := by
  induction h with
  | single h => exact h.2.2
  | tail _ h _ => exact h.2.2

/-- Any path either survives removing all edges incident to `c`, or first
passes through `c`. -/
theorem transGen_avoid_or_through {r : T → T → Prop} {c q x : T}
    (h : Relation.TransGen r q x) :
    Relation.TransGen (fun u v => r u v ∧ u ≠ c ∧ v ≠ c) q x ∨ x = c ∨
      Relation.TransGen r c x := by
  induction h with
  | @single b h =>
    by_cases hb : b = c
    · exact Or.inr (Or.inl hb)
    · by_cases hq : q = c
      · subst hq
        exact Or.inr (Or.inr (Relation.TransGen.single h))
      · exact Or.inl (Relation.TransGen.single ⟨h, hq, hb⟩)
  | @tail m b hqm hmb ih =>
    by_cases hb : b = c
    · exact Or.inr (Or.inl hb)
    · rcases ih with h1 | h1 | h1
      · have hm : m ≠ c := transGen_restrict_ne h1
        exact Or.inl (Relation.TransGen.tail h1 ⟨hmb, hm, hb⟩)
      · subst h1
        exact Or.inr (Or.inr (Relation.TransGen.single hmb))
      · exact Or.inr (Or.inr (Relation.TransGen.tail h1 hmb))

/-- In an acyclic relation, a path out of `c` decomposes into a first edge
out of `c` followed by a path avoiding `c`. -/
theorem transGen_from_decomp {r : T → T → Prop} {c x : T}
    (hacy : ∀ a, ¬ Relation.TransGen r a a)
    (h : Relation.TransGen r c x) :
    ∃ d, r c d ∧ (x = d ∨
      Relation.TransGen (fun u v => r u v ∧ u ≠ c ∧ v ≠ c) d x) := by
  induction h with
  | @single b h => exact ⟨b, h, Or.inl rfl⟩
  | @tail m b hqm hmb ih =>
    obtain ⟨d, hd, hrest⟩ := ih
    have hmc : m ≠ c := fun he => hacy c (he ▸ hqm)
    have hcb : Relation.TransGen r c b := Relation.TransGen.tail hqm hmb
    have hbc : b ≠ c := fun he => hacy c (he ▸ hcb)
    rcases hrest with heq | hrest
    · subst heq
      exact ⟨m, hd, Or.inr (Relation.TransGen.single ⟨hmb, hmc, hbc⟩)⟩
    · exact ⟨d, hd, Or.inr (Relation.TransGen.tail hrest ⟨hmb, hmc, hbc⟩)⟩

/-- Acyclicity transfers to the Dependent Index relation via symmetry. -/
theorem inv_acyclic_dpt (g : Graph T) (hInv : Inv g) :
    ∀ a, ¬ Relation.TransGen (DptRel g) a a := by
  intro a ha
  refine hInv.acyclic a ?_
  have hsw : Relation.TransGen (Function.swap (DepRel g)) a a := by
    refine Relation.TransGen.mono ?_ ha
    intro u v huv
    exact (hInv.symm v u).mpr huv
  exact Relation.transGen_swap.mp hsw

/-- Erasing a node with no remaining edges from the Node Set preserves the
invariants. -/
theorem inv_erase_isolated (g : Graph T) (c : T) (hInv : Inv g)
    (hT : g.dependents.val c = ∅) (hD : g.dependencies.val c = ∅) :
    Inv { g with nodes := g.nodes.erase c } := by
  refine ⟨?_, ?_, ?_, ?_, hInv.symm, hInv.irrefl, hInv.acyclic,
    hInv.depNonempty, hInv.dptNonempty⟩
  · intro k hk
    have hne : k ≠ c := by
      intro he
      exact hInv.depNonempty k hk (he ▸ hD)
    exact Finset.mem_erase.mpr ⟨hne, hInv.depKeys k hk⟩
  · intro k v hv
    have hne : v ≠ c := by
      intro he
      have : k ∈ g.dependents.val c := he ▸ (hInv.symm k v).mp hv
      rw [hT] at this
      exact Finset.not_mem_empty k this
    exact Finset.mem_erase.mpr ⟨hne, hInv.depVals k v hv⟩
  · intro k hk
    have hne : k ≠ c := by
      intro he
      exact hInv.dptNonempty k hk (he ▸ hT)
    exact Finset.mem_erase.mpr ⟨hne, hInv.dptKeys k hk⟩
  · intro k v hv
    have hne : v ≠ c := by
      intro he
      have : k ∈ g.dependencies.val c := he ▸ (hInv.symm v k).mpr hv
      rw [hD] at this
      exact Finset.not_mem_empty k this
    exact Finset.mem_erase.mpr ⟨hne, hInv.dptVals k v hv⟩

/-- Full processing of one work-queue node in `RemoveForce`: both severing
loops succeed, the processed node ends up isolated, and the surviving edges
are exactly those not incident to it. -/
theorem processForce_spec (g : Graph T) (c : T) (hInv : Inv g) :
    ∃ g1 g2,
      severDependents g c (iterList (g.dependents.val c)) =
        some (g1, iterList (g.dependents.val c)) ∧
      severDependenciesForce g1 c (iterList (g1.dependencies.val c)) = some g2 ∧
      Inv { g2 with nodes := g2.nodes.erase c } ∧
      g2.nodes = g.nodes ∧
      edgeCount g2.dependencies + (iterList (g.dependents.val c)).length +
        (iterList (g.dependencies.val c)).length = edgeCount g.dependencies ∧
      (∀ a b, b ∈ g2.dependents.val a ↔ b ∈ g.dependents.val a ∧ a ≠ c ∧ b ≠ c) ∧
      (∀ a b, b ∈ g2.dependencies.val a ↔ b ∈ g.dependencies.val a ∧ a ≠ c ∧ b ≠ c) := by
  have hcc : c ∉ g.dependents.val c := fun hm => hInv.irrefl c ((hInv.symm c c).mpr hm)
  obtain ⟨g1, heq1, hInv1, hnodes1, hec1, hvalT1, hvalD1⟩ :=
    severDependents_spec c (iterList (g.dependents.val c)) g hInv nodup_iterList
      (fun d hd => mem_iterList.mp hd)
  have hT1c : g1.dependents.val c = ∅ := by
    rw [hvalT1 c, if_pos rfl, iterList_toFinset, Finset.sdiff_self]
  have hD1c : g1.dependencies.val c = g.dependencies.val c := by
    rw [hvalD1 c, if_neg (fun hm => hcc (mem_iterList.mp hm))]
  obtain ⟨g2, heq2, hInv2, hnodes2, hec2, hvalD2, hvalT2⟩ :=
    severDependenciesForce_spec c (iterList (g1.dependencies.val c)) g1 hInv1 nodup_iterList
      (fun d hd => mem_iterList.mp hd)
  have hD2c : g2.dependencies.val c = ∅ := by
    rw [hvalD2 c, if_pos rfl, iterList_toFinset, Finset.sdiff_self]
  have hnc2 : c ∉ iterList (g1.dependencies.val c) := by
    rw [mem_iterList, hD1c]
    exact hInv.irrefl c
  have hT2c : g2.dependents.val c = ∅ := by
    rw [hvalT2 c, if_neg hnc2, hT1c]
  have hdptrel : ∀ a b, b ∈ g2.dependents.val a ↔
      b ∈ g.dependents.val a ∧ a ≠ c ∧ b ≠ c := by
    intro a b
    by_cases hac : a = c
    · subst hac
      rw [hT2c]
      simp
    · have hvala : g1.dependents.val a = g.dependents.val a := by
        rw [hvalT1 a, if_neg hac]
      rw [hvalT2 a]
      by_cases hal : a ∈ iterList (g1.dependencies.val c)
      · rw [if_pos hal, hvala, Finset.mem_erase]
        tauto
      · rw [if_neg hal, hvala]
        rw [mem_iterList, hD1c] at hal
        have hbc : b ∈ g.dependents.val a → b ≠ c := by
          intro hb he
          rw [he] at hb
          exact hal ((hInv.symm c a).mpr hb)
        tauto
  have hdeprel : ∀ a b, b ∈ g2.dependencies.val a ↔
      b ∈ g.dependencies.val a ∧ a ≠ c ∧ b ≠ c := by
    intro a b
    by_cases hac : a = c
    · subst hac
      rw [hD2c]
      simp
    · rw [hvalD2 a, if_neg hac, hvalD1 a]
      by_cases hal : a ∈ iterList (g.dependents.val c)
      · rw [if_pos hal, Finset.mem_erase]
        tauto
      · rw [if_neg hal]
        rw [mem_iterList] at hal
        have hbc : b ∈ g.dependencies.val a → b ≠ c := by
          intro hb he
          rw [he] at hb
          exact hal ((hInv.symm a c).mp hb)
        tauto
  refine ⟨g1, g2, heq1, heq2, inv_erase_isolated g2 c hInv2 hT2c hD2c, ?_, ?_, hdptrel, hdeprel⟩
  · rw [hnodes2, hnodes1]
  · have hlen : (iterList (g1.dependencies.val c)).length =
        (iterList (g.dependencies.val c)).length := by
      rw [hD1c]
    omega

/-- Full processing of one work-queue node in `RemoveAutoRemove`. -/
theorem processAuto_spec (g : Graph T) (c : T) (hInv : Inv g) :
    ∃ g1 g2 enq2,
      severDependents g c (iterList (g.dependents.val c)) =
        some (g1, iterList (g.dependents.val c)) ∧
      severDependenciesAuto g1 c (iterList (g1.dependencies.val c)) = some (g2, enq2) ∧
      Inv { g2 with nodes := g2.nodes.erase c } ∧
      g2.nodes = g.nodes ∧
      enq2.length ≤ (iterList (g.dependencies.val c)).length ∧
      edgeCount g2.dependencies + (iterList (g.dependents.val c)).length +
        (iterList (g.dependencies.val c)).length = edgeCount g.dependencies := by
  have hcc : c ∉ g.dependents.val c := fun hm => hInv.irrefl c ((hInv.symm c c).mpr hm)
  obtain ⟨g1, heq1, hInv1, hnodes1, hec1, hvalT1, hvalD1⟩ :=
    severDependents_spec c (iterList (g.dependents.val c)) g hInv nodup_iterList
      (fun d hd => mem_iterList.mp hd)
  have hT1c : g1.dependents.val c = ∅ := by
    rw [hvalT1 c, if_pos rfl, iterList_toFinset, Finset.sdiff_self]
  have hD1c : g1.dependencies.val c = g.dependencies.val c := by
    rw [hvalD1 c, if_neg (fun hm => hcc (mem_iterList.mp hm))]
  obtain ⟨g2, heq2, hInv2, hnodes2, hec2, hvalD2, hvalT2⟩ :=
    severDependenciesAuto_spec c (iterList (g1.dependencies.val c)) g1 hInv1 nodup_iterList
      (fun d hd => mem_iterList.mp hd)
  have hD2c : g2.dependencies.val c = ∅ := by
    rw [hvalD2 c, if_pos rfl, iterList_toFinset, Finset.sdiff_self]
  have hnc2 : c ∉ iterList (g1.dependencies.val c) := by
    rw [mem_iterList, hD1c]
    exact hInv.irrefl c
  have hT2c : g2.dependents.val c = ∅ := by
    rw [hvalT2 c, if_neg hnc2, hT1c]
  refine ⟨g1, g2, _, heq1, heq2, inv_erase_isolated g2 c hInv2 hT2c hD2c, ?_, ?_, ?_⟩
  · rw [hnodes2, hnodes1]
  · calc ((iterList (g1.dependencies.val c)).filter fun d =>
        decide ((g1.dependents.val d).card = 1 ∧ c ∈ g1.dependents.val d)).length
        ≤ (iterList (g1.dependencies.val c)).length := List.length_filter_le _ _
      _ = (iterList (g.dependencies.val c)).length := by rw [hD1c]
  · have hlen : (iterList (g1.dependencies.val c)).length =
        (iterList (g.dependencies.val c)).length := by
      rw [hD1c]
    omega


theorem reachList_cons_iff (g g2 : Graph T) (c : T)
    (hacyT : ∀ a, ¬ Relation.TransGen (DptRel g) a a)
    (hrel : ∀ a b, DptRel g2 a b ↔ DptRel g a b ∧ a ≠ c ∧ b ≠ c)
    (rest enq : List T) (henq : ∀ d, d ∈ enq ↔ d ∈ g.dependents.val c) (x : T) :
    ReachList g (c :: rest) x ↔ x = c ∨ ReachList g2 (rest ++ enq) x := by
  have t2_of_t1 : ∀ q z, Relation.TransGen
      (fun u v => DptRel g u v ∧ u ≠ c ∧ v ≠ c) q z → Relation.TransGen (DptRel g2) q z :=
    fun q z h => Relation.TransGen.mono (fun u v hv => (hrel u v).mpr hv) h
  have t1_of_t2 : ∀ q z, Relation.TransGen (DptRel g2) q z →
      Relation.TransGen (fun u v => DptRel g u v ∧ u ≠ c ∧ v ≠ c) q z :=
    fun q z h => Relation.TransGen.mono (fun u v hv => (hrel u v).mp hv) h
  have through_c : ∀ z, Relation.TransGen (DptRel g) c z →
      ∃ d ∈ enq, z = d ∨ Relation.TransGen (DptRel g2) d z := by
    intro z hz
    obtain ⟨d, hd, hrest⟩ := transGen_from_decomp hacyT hz
    refine ⟨d, (henq d).mpr hd, ?_⟩
    rcases hrest with rfl | hrest
    · exact Or.inl rfl
    · exact Or.inr (t2_of_t1 d z hrest)
  constructor
  · rintro ⟨q, hq, hcase⟩
    rcases List.mem_cons.mp hq with hqc | hqrest
    · rw [hqc] at hcase
      rcases hcase with rfl | htrans
      · exact Or.inl rfl
      · by_cases hxc : x = c
        · exact Or.inl hxc
        · obtain ⟨d, hd, hcase2⟩ := through_c x htrans
          exact Or.inr ⟨d, List.mem_append_right rest hd, hcase2⟩
    · rcases hcase with rfl | htrans
      · exact Or.inr ⟨x, List.mem_append_left enq hqrest, Or.inl rfl⟩
      · rcases transGen_avoid_or_through (c := c) htrans with h1 | h1 | h1
        · exact Or.inr ⟨q, List.mem_append_left enq hqrest, Or.inr (t2_of_t1 q x h1)⟩
        · exact Or.inl h1
        · by_cases hxc : x = c
          · exact Or.inl hxc
          · obtain ⟨d, hd, hcase2⟩ := through_c x h1
            exact Or.inr ⟨d, List.mem_append_right rest hd, hcase2⟩
  · intro h
    rcases h with rfl | ⟨q, hq, hcase⟩
    · exact ⟨x, List.mem_cons_self x rest, Or.inl rfl⟩
    · rcases List.mem_append.mp hq with hqr | hqe
      · refine ⟨q, List.mem_cons.mpr (Or.inr hqr), ?_⟩
        rcases hcase with rfl | htrans
        · exact Or.inl rfl
        · exact Or.inr (Relation.TransGen.mono (fun u v hv => hv.1) (t1_of_t2 q x htrans))
      · have hcq : DptRel g c q := (henq q).mp hqe
        refine ⟨c, List.mem_cons_self c rest, Or.inr ?_⟩
        rcases hcase with rfl | htrans
        · exact Relation.TransGen.single hcq
        · exact Relation.TransGen.head hcq
            (Relation.TransGen.mono (fun u v hv => hv.1) (t1_of_t2 q x htrans))

/-- The fueled `RemoveForce` work queue, run with enough fuel on an
invariant-respecting graph, succeeds, preserves the invariants, and removes
exactly the queue members and their transitive dependents. -/
theorem forceLoop_spec : ∀ (fuel : Nat) (g : Graph T) (queue : List T),
    Inv g → edgeCount g.dependencies + queue.length < fuel →
    ∃ gf, forceLoop fuel g queue = some gf ∧ Inv gf ∧
      (∀ x, x ∈ gf.nodes ↔ x ∈ g.nodes ∧ ¬ ReachList g queue x) := by
  intro fuel
  induction fuel with
  | zero => intro g queue hInv hfuel; omega
  | succ fuel ih =>
    intro g queue hInv hfuel
    cases queue with
    | nil =>
      refine ⟨g, rfl, hInv, ?_⟩
      intro x
      simp [ReachList]
    | cons c rest =>
      obtain ⟨g1, g2, heq1, heq2, hInv3, hnodes2, hec, hdptrel, hdeprel⟩ :=
        processForce_spec g c hInv
      have hfuel3 : edgeCount ({ g2 with nodes := g2.nodes.erase c } : Graph T).dependencies
          + (rest ++ iterList (g.dependents.val c)).length < fuel := by
        have hsame : ({ g2 with nodes := g2.nodes.erase c } : Graph T).dependencies
            = g2.dependencies := rfl
        rw [hsame, List.length_append]
        rw [List.length_cons] at hfuel
        omega
      obtain ⟨gf, heqf, hInvf, hifff⟩ :=
        ih { g2 with nodes := g2.nodes.erase c } (rest ++ iterList (g.dependents.val c))
          hInv3 hfuel3
      refine ⟨gf, ?_, hInvf, ?_⟩
      · calc forceLoop (fuel + 1) g (c :: rest)
            = (some (g1, iterList (g.dependents.val c))).bind fun p =>
                (severDependenciesForce p.1 c (iterList (p.1.dependencies.val c))).bind
                  fun g2 => forceLoop fuel { g2 with nodes := g2.nodes.erase c }
                    (rest ++ p.2) := by rw [forceLoop, heq1]
          _ = (severDependenciesForce g1 c (iterList (g1.dependencies.val c))).bind
                fun g2 => forceLoop fuel { g2 with nodes := g2.nodes.erase c }
                  (rest ++ iterList (g.dependents.val c)) := rfl
          _ = forceLoop fuel { g2 with nodes := g2.nodes.erase c }
                (rest ++ iterList (g.dependents.val c)) := by rw [heq2]; rfl
          _ = some gf := heqf
      · intro x
        have hreach := reachList_cons_iff g { g2 with nodes := g2.nodes.erase c } c
          (inv_acyclic_dpt g hInv) (fun a b => hdptrel a b)
          rest (iterList (g.dependents.val c)) (fun d => mem_iterList) x
        rw [hifff x, hreach]
        have hnodes3 : ({ g2 with nodes := g2.nodes.erase c } : Graph T).nodes
            = g.nodes.erase c := by rw [hnodes2]
        rw [hnodes3, Finset.mem_erase]
        tauto

/-- The fueled `RemoveAutoRemove` work queue, run with enough fuel on an
invariant-respecting graph, succeeds and preserves the invariants. -/
theorem autoRemoveLoop_spec : ∀ (fuel : Nat) (g : Graph T) (queue : List T),
    Inv g → edgeCount g.dependencies + queue.length < fuel →
    ∃ gf, autoRemoveLoop fuel g queue = some gf ∧ Inv gf := by
  intro fuel
  induction fuel with
  | zero => intro g queue hInv hfuel; omega
  | succ fuel ih =>
    intro g queue hInv hfuel
    cases queue with
    | nil => exact ⟨g, rfl, hInv⟩
    | cons c rest =>
      obtain ⟨g1, g2, enq2, heq1, heq2, hInv3, hnodes2, hlen2, hec⟩ :=
        processAuto_spec g c hInv
      have hfuel3 : edgeCount ({ g2 with nodes := g2.nodes.erase c } : Graph T).dependencies
          + (rest ++ iterList (g.dependents.val c) ++ enq2).length < fuel := by
        have hsame : ({ g2 with nodes := g2.nodes.erase c } : Graph T).dependencies
            = g2.dependencies := rfl
        rw [hsame, List.length_append, List.length_append]
        rw [List.length_cons] at hfuel
        omega
      obtain ⟨gf, heqf, hInvf⟩ :=
        ih { g2 with nodes := g2.nodes.erase c }
          (rest ++ iterList (g.dependents.val c) ++ enq2) hInv3 hfuel3
      refine ⟨gf, ?_, hInvf⟩
      calc autoRemoveLoop (fuel + 1) g (c :: rest)
          = (some (g1, iterList (g.dependents.val c))).bind fun p =>
              (severDependenciesAuto p.1 c (iterList (p.1.dependencies.val c))).bind
                fun q => autoRemoveLoop fuel { q.1 with nodes := q.1.nodes.erase c }
                  (rest ++ p.2 ++ q.2) := by rw [autoRemoveLoop, heq1]
        _ = (severDependenciesAuto g1 c (iterList (g1.dependencies.val c))).bind
              fun q => autoRemoveLoop fuel { q.1 with nodes := q.1.nodes.erase c }
                (rest ++ iterList (g.dependents.val c) ++ q.2) := rfl
        _ = autoRemoveLoop fuel { g2 with nodes := g2.nodes.erase c }
              (rest ++ iterList (g.dependents.val c) ++ enq2) := by rw [heq2]; rfl
        _ = some gf := heqf

/-! ### `Leaves` and `Layers` -/

theorem mem_leaves_iff (g : Graph T) (x : T) :
    x ∈ g.Leaves ↔ x ∈ g.nodes ∧ g.dependencies.val x = ∅ := by
  rw [Graph.Leaves, Finset.mem_filter, Finset.card_eq_zero]

/-- A finite set closed under an acyclic relation and containing some element
contains an element with no successor. -/
theorem exists_sink {r : T → T → Prop} (hacy : ∀ a, ¬ Relation.TransGen r a a) :
    ∀ (n : Nat) (s : Finset T), s.card ≤ n → (∀ z ∈ s, ∀ y, r z y → y ∈ s) →
      ∀ x ∈ s, ∃ m ∈ s, ∀ y, ¬ r m y := by
  intro n
  induction n with
  | zero =>
    intro s hs _ x hx
    rw [Nat.le_zero, Finset.card_eq_zero] at hs
    subst hs
    exact absurd hx (Finset.not_mem_empty x)
  | succ n ih =>
    intro s hs hclosed x hx
    by_cases hlx : ∀ y, ¬ r x y
    · exact ⟨x, hx, hlx⟩
    · push_neg at hlx
      obtain ⟨y, hy⟩ := hlx
      classical
      have hys : y ∈ s := hclosed x hx y hy
      have hxy : x ≠ y := by
        intro he
        exact hacy x (Relation.TransGen.single (he ▸ hy))
      set s2 := s.filter (fun z => z = y ∨ Relation.TransGen r y z) with hs2
      have hy2 : y ∈ s2 := Finset.mem_filter.mpr ⟨hys, Or.inl rfl⟩
      have hsub : s2 ⊆ s := Finset.filter_subset _ s
      have hclosed2 : ∀ z ∈ s2, ∀ w, r z w → w ∈ s2 := by
        intro z hz w hw
        obtain ⟨hzs, hzy⟩ := Finset.mem_filter.mp hz
        refine Finset.mem_filter.mpr ⟨hclosed z hzs w hw, Or.inr ?_⟩
        rcases hzy with rfl | hzy
        · exact Relation.TransGen.single hw
        · exact Relation.TransGen.tail hzy hw
      have hxnot : x ∉ s2 := by
        intro hx2
        obtain ⟨_, hxy2⟩ := Finset.mem_filter.mp hx2
        rcases hxy2 with rfl | hxy2
        · exact hacy x (Relation.TransGen.single hy)
        · exact hacy y (Relation.TransGen.tail hxy2 hy)
      have hcard : s2.card ≤ n := by
        have h1 : s2.card < s.card := Finset.card_lt_card ⟨hsub, fun hss => hxnot (hss hx)⟩
        omega
      obtain ⟨m, hm, hml⟩ := ih s2 hcard hclosed2 y hy2
      exact ⟨m, hsub hm, hml⟩

/-- An invariant-respecting nonempty graph has a leaf (spec: acyclicity makes
the layer peeling progress). -/
theorem leaves_nonempty (g : Graph T) (hInv : Inv g) (hne : g.nodes ≠ ∅) :
    g.Leaves ≠ ∅ := by
  obtain ⟨x, hx⟩ := Finset.nonempty_iff_ne_empty.mpr hne
  obtain ⟨m, hm, hml⟩ := exists_sink hInv.acyclic g.nodes.card g.nodes le_rfl
    (fun z _ y hy => hInv.depVals z y hy) x hx
  have hval : g.dependencies.val m = ∅ := by
    rw [Finset.eq_empty_iff_forall_not_mem]
    exact hml
  exact Finset.ne_empty_of_mem ((mem_leaves_iff g m).mpr ⟨hm, hval⟩)

theorem foldDelete_inv : ∀ (l : List T) (g : Graph T), Inv g →
    Inv (l.foldl (fun h t => h.Delete t) g) := by
  intro l
  induction l with
  | nil => intro g hInv; exact hInv
  | cons t rest ih =>
    intro g hInv
    rw [List.foldl_cons]
    exact ih (g.Delete t) (delete_inv g t hInv)

theorem foldDelete_nodes : ∀ (l : List T) (g : Graph T),
    (l.foldl (fun h t => h.Delete t) g).nodes = g.nodes \ l.toFinset := by
  intro l
  induction l with
  | nil => intro g; simp
  | cons t rest ih =>
    intro g
    rw [List.foldl_cons, ih, delete_nodes, List.toFinset_cons, Finset.erase_eq,
      sdiff_sdiff]
    congr 1

theorem foldDelete_depRel : ∀ (l : List T) (g : Graph T), Inv g →
    ∀ a b, (b ∈ (l.foldl (fun h t => h.Delete t) g).dependencies.val a ↔
      b ∈ g.dependencies.val a ∧ a ∉ l ∧ b ∉ l) := by
  intro l
  induction l with
  | nil => intro g _ a b; simp
  | cons t rest ih =>
    intro g hInv a b
    rw [List.foldl_cons, ih (g.Delete t) (delete_inv g t hInv) a b,
      delete_depRel g t hInv a b]
    simp only [List.mem_cons]
    tauto

/-- The fueled layer peeling, on an invariant-respecting graph with enough
fuel, produces a partition of the Node Set into layers whose members depend
only on strictly earlier layers. -/
theorem layersLoop_spec : ∀ (fuel : Nat) (g : Graph T), Inv g → g.nodes.card ≤ fuel →
    (∀ x, (∃ s ∈ layersLoop fuel g, x ∈ s) ↔ x ∈ g.nodes) ∧
    (∀ s ∈ layersLoop fuel g, s ⊆ g.nodes) ∧
    (layersLoop fuel g).Pairwise (fun s t => ∀ x, x ∈ s → x ∉ t) ∧
    (∀ i (hi : i < (layersLoop fuel g).length),
      ∀ n ∈ (layersLoop fuel g).get ⟨i, hi⟩, ∀ d ∈ g.dependencies.val n,
        ∃ j, ∃ hj : j < (layersLoop fuel g).length, j < i ∧
          d ∈ (layersLoop fuel g).get ⟨j, hj⟩) := by
  intro fuel
  induction fuel with
  | zero =>
    intro g hInv hfuel
    rw [Nat.le_zero, Finset.card_eq_zero] at hfuel
    rw [layersLoop]
    refine ⟨?_, ?_, List.Pairwise.nil, ?_⟩
    · intro x
      rw [hfuel]
      simp
    · intro s hs
      exact absurd hs (List.not_mem_nil s)
    · intro i hi
      exact absurd hi (by simp)
  | succ fuel ih =>
    intro g hInv hfuel
    by_cases hemp : g.nodes = ∅
    · rw [layersLoop, if_pos (by rw [hemp, Finset.card_empty])]
      refine ⟨?_, ?_, List.Pairwise.nil, ?_⟩
      · intro x
        rw [hemp]
        simp
      · intro s hs
        exact absurd hs (List.not_mem_nil s)
      · intro i hi
        exact absurd hi (by simp)
    · rw [layersLoop, if_neg (fun hc => hemp (Finset.card_eq_zero.mp hc))]
      have hleafsub : g.Leaves ⊆ g.nodes := Finset.filter_subset _ _
      have hleafne : g.Leaves ≠ ∅ := leaves_nonempty g hInv hemp
      obtain ⟨lf, hlf⟩ := Finset.nonempty_iff_ne_empty.mpr hleafne
      have hInv2 : Inv ((iterList g.Leaves).foldl (fun h leaf => h.Delete leaf) g) :=
        foldDelete_inv (iterList g.Leaves) g hInv
      have hnodes2 : ((iterList g.Leaves).foldl (fun h leaf => h.Delete leaf) g).nodes
          = g.nodes \ g.Leaves := by
        rw [foldDelete_nodes, iterList_toFinset]
      have hcard2 : ((iterList g.Leaves).foldl (fun h leaf => h.Delete leaf) g).nodes.card
          ≤ fuel := by
        rw [hnodes2]
        have h1 : (g.nodes \ g.Leaves).card < g.nodes.card := by
          refine Finset.card_lt_card ?_
          refine ⟨Finset.sdiff_subset, fun hss => ?_⟩
          have := hss (hleafsub hlf)
          rw [Finset.mem_sdiff] at this
          exact this.2 hlf
        omega
      obtain ⟨ihA, ihB, ihC, ihD⟩ := ih _ hInv2 hcard2
      have hdisj : ∀ s ∈ layersLoop fuel ((iterList g.Leaves).foldl
          (fun h leaf => h.Delete leaf) g), ∀ x, x ∈ g.Leaves → x ∉ s := by
        intro s hs x hx hxs
        have := ihB s hs hxs
        rw [hnodes2, Finset.mem_sdiff] at this
        exact this.2 hx
      refine ⟨?_, ?_, ?_, ?_⟩
      · intro x
        simp only [List.mem_cons]
        constructor
        · rintro ⟨s, rfl | hs, hxs⟩
          · exact hleafsub hxs
          · have := ihB s hs hxs
            rw [hnodes2, Finset.mem_sdiff] at this
            exact this.1
        · intro hx
          by_cases hxl : x ∈ g.Leaves
          · exact ⟨g.Leaves, Or.inl rfl, hxl⟩
          · have : x ∈ ((iterList g.Leaves).foldl (fun h leaf => h.Delete leaf) g).nodes := by
              rw [hnodes2, Finset.mem_sdiff]
              exact ⟨hx, hxl⟩
            obtain ⟨s, hs, hxs⟩ := (ihA x).mpr this
            exact ⟨s, Or.inr hs, hxs⟩
      · intro s hs
        rcases List.mem_cons.mp hs with rfl | hs
        · exact hleafsub
        · intro x hx
          have := ihB s hs hx
          rw [hnodes2, Finset.mem_sdiff] at this
          exact this.1
      · refine List.Pairwise.cons ?_ ihC
        intro s hs x hx
        exact hdisj s hs x hx
      · intro i hi n hn d hd
        cases i with
        | zero =>
          have hn0 : n ∈ g.Leaves := hn
          rw [mem_leaves_iff] at hn0
          rw [hn0.2] at hd
          exact absurd hd (Finset.not_mem_empty d)
        | succ i =>
          have hi2 : i < (layersLoop fuel ((iterList g.Leaves).foldl
              (fun h leaf => h.Delete leaf) g)).length := by
            rw [List.length_cons] at hi
            omega
          have hn2 : n ∈ (layersLoop fuel ((iterList g.Leaves).foldl
              (fun h leaf => h.Delete leaf) g)).get ⟨i, hi2⟩ := hn
          by_cases hdl : d ∈ g.Leaves
          · refine ⟨0, by rw [List.length_cons]; omega, by omega, hdl⟩
          · have hnl : n ∉ g.Leaves := by
              intro hnl
              have := ihB _ (List.get_mem _ _ hi2) hn2
              rw [hnodes2, Finset.mem_sdiff] at this
              exact this.2 hnl
            have hd2 : d ∈ ((iterList g.Leaves).foldl
                (fun h leaf => h.Delete leaf) g).dependencies.val n := by
              rw [foldDelete_depRel (iterList g.Leaves) g hInv n d]
              refine ⟨hd, ?_, ?_⟩
              · rw [mem_iterList]
                exact hnl
              · rw [mem_iterList]
                exact hdl
            obtain ⟨j, hj, hji, hdj⟩ := ihD i hi2 n hn2 d hd2
            refine ⟨j + 1, by rw [List.length_cons]; omega, by omega, hdj⟩

/-! ### Building graphs from an edge list (test scaffolding) -/

theorem exceptBind_ok (g : Graph T) (f : Graph T → Except DepErr (Graph T)) :
    (Except.ok g : Except DepErr (Graph T)).bind f = f g := rfl

theorem exceptBind_error (e : DepErr) (f : Graph T → Except DepErr (Graph T)) :
    (Except.error e : Except DepErr (Graph T)).bind f = .error e := rfl

theorem inv_dependList : ∀ (l : List (T × T)) (g g2 : Graph T), Inv g →
    dependList g l = .ok g2 → Inv g2 := by
  intro l
  induction l with
  | nil =>
    intro g g2 hInv h
    rw [dependList] at h
    exact (Except.ok.inj h) ▸ hInv
  | cons p rest ih =>
    intro g g2 hInv h
    obtain ⟨x, y⟩ := p
    rw [dependList] at h
    cases heq : g.Depend x y with
    | error e =>
      rw [heq, exceptBind_error] at h
      cases h
    | ok g1 =>
      rw [heq, exceptBind_ok] at h
      exact ih g1 g2 (depend_ok_inv hInv heq) h

/-! ### Facts about the concrete scenario graphs -/

theorem scenarioE_ok : scenarioE = .ok gS := rfl

theorem inv_gS : Inv gS := inv_dependList _ (New Nat) gS inv_new scenarioE_ok

theorem auto_d : gS.RemoveAutoRemove 3 = some gS3 := rfl

theorem auto_a : gS.RemoveAutoRemove 0 = some gSa := rfl

theorem auto_ax : gSa.RemoveAutoRemove 4 = some gSax := rfl

theorem auto_ax1 : gSax.RemoveAutoRemove 7 = some gSax1 := rfl

theorem depend_gBA : (New Nat).Depend 1 0 = .ok gBA := rfl

theorem inv_gBA : Inv gBA := depend_ok_inv inv_new depend_gBA

theorem undepend_gBA : gBA.Undepend 1 0 = .ok gU := rfl

theorem inv_gU : Inv gU := undepend_ok_inv inv_gBA undepend_gBA

theorem depend_gU : gU.Depend 1 0 = .ok gU2 := rfl

theorem chain_ok : dependList (New Nat) [(10, 11), (11, 12)] = .ok gChain := rfl

theorem inv_gChain : Inv gChain := inv_dependList _ (New Nat) gChain inv_new chain_ok

theorem depend_chain : gChain.Depend 10 12 = .ok gChain2 := rfl

theorem undepend_chain : gChain2.Undepend 10 12 = .ok gChain3 := rfl

/-! ### The claims -/

theorem finset_eq_of_iterList {s t : Finset T} (h : iterList s = iterList t) : s = t :=
  Finset.ext fun x => by
    rw [← mem_iterList (s := s), ← mem_iterList (s := t), h]

theorem removeFuel_gt (g : Graph T) (t : T) :
    edgeCount g.dependencies + ([t] : List T).length < g.removeFuel := by
  rw [Graph.removeFuel, List.length_singleton]
  omega

theorem reachList_singleton (g : Graph T) (t x : T) :
    ReachList g [t] x ↔ x = t ∨ Relation.TransGen (DptRel g) t x := by
  constructor
  · rintro ⟨q, hq, hc⟩
    rw [List.mem_singleton] at hq
    subst hq
    exact hc
  · intro h
    exact ⟨t, List.mem_singleton.mpr rfl, h⟩

/-- C1: for every graph satisfying invariants 1-5, every public operation
that yields a graph (Depend/AddDependency, Undepend, Remove, RemoveForce,
RemoveAutoRemove, Delete, Clone, Realloc) yields a graph satisfying all five
invariants again; `Layers` and the queries operate on a private copy and do
not mutate the graph in this pure embedding. -/
theorem C1_public_operations_preserve_invariants (g : Graph T) (hInv : Inv g) :
    (∀ x y g2, g.Depend x y = .ok g2 → Inv g2) ∧
    (∀ x y g2, g.Undepend x y = .ok g2 → Inv g2) ∧
    (∀ t g2, g.Remove t = .ok g2 → Inv g2) ∧
    (∀ t, Inv (g.Delete t)) ∧
    (∀ t g2, g.RemoveForce t = some g2 → Inv g2) ∧
    (∀ t g2, g.RemoveAutoRemove t = some g2 → Inv g2) ∧
    Inv g.Clone ∧ Inv g.Realloc := by
  refine ⟨?_, ?_, ?_, ?_, ?_, ?_, hInv, hInv⟩
  · intro x y g2 h
    exact depend_ok_inv hInv h
  · intro x y g2 h
    exact undepend_ok_inv hInv h
  · intro t g2 h
    obtain ⟨_, rfl⟩ := remove_ok_inversion h
    exact delete_inv g t hInv
  · intro t
    exact delete_inv g t hInv
  · intro t g2 h
    obtain ⟨gf, heqf, hInvf, _⟩ := forceLoop_spec g.removeFuel g [t] hInv (removeFuel_gt g t)
    rw [Graph.RemoveForce, heqf] at h
    exact (Option.some.inj h) ▸ hInvf
  · intro t g2 h
    obtain ⟨gf, heqf, hInvf⟩ := autoRemoveLoop_spec g.removeFuel g [t] hInv (removeFuel_gt g t)
    rw [Graph.RemoveAutoRemove, heqf] at h
    exact (Option.some.inj h) ▸ hInvf

/-- C1 witness at a concrete scenario graph. -/
theorem C1_witness : Inv (gS.Delete 0) :=
  (C1_public_operations_preserve_invariants gS inv_gS).2.2.2.1 0

/-- C2: `Depend` fails with `ErrDependsOnSelf` exactly on self edges,
otherwise fails with `ErrCircularDependency` exactly when the dependency
already transitively depends on the dependent, and otherwise succeeds by
inserting the edge into both indices and both endpoints into the Node Set,
re-insertion of an existing edge being a no-op on the state. -/
theorem C2_depend_contract (g : Graph T) (hInv : Inv g) (x y : T) :
    (g.Depend x y = .error .ErrDependsOnSelf ↔ x = y) ∧
    (x ≠ y → (g.Depend x y = .error .ErrCircularDependency ↔
      Relation.TransGen (DepRel g) y x)) ∧
    (x ≠ y → ¬ Relation.TransGen (DepRel g) y x → ∃ g2, g.Depend x y = .ok g2) ∧
    (∀ g2, g.Depend x y = .ok g2 →
      g2.dependents.val y = insert x (g.dependents.val y) ∧
      g2.dependencies.val x = insert y (g.dependencies.val x) ∧
      g2.nodes = insert x (insert y g.nodes) ∧
      (y ∈ g.dependencies.val x → g2 = g)) := by
  refine ⟨depend_error_self_iff g x y, ?_, ?_, ?_⟩
  · intro hxy
    rw [depend_error_circular_iff g x y hxy, dependsOn_iff]
    exact ⟨fun h => h.2, fun h => ⟨transGen_mem_nodes hInv h, h⟩⟩
  · intro hxy hnt
    have hdo : g.DependsOn y x = false := by
      cases hb : g.DependsOn y x with
      | false => rfl
      | true => exact absurd ((dependsOn_iff g y x).mp hb).2 hnt
    refine ⟨⟨insert x (insert y g.nodes), addToDep g.dependents y x,
      addToDep g.dependencies x y⟩, ?_⟩
    rw [Graph.Depend, if_neg hxy, hdo]
    rw [if_neg Bool.false_ne_true]
  · intro g2 h
    have hnoop := fun hedge => depend_ok_noop hInv h hedge
    obtain ⟨hxy, hc, rfl⟩ := depend_ok_inversion h
    refine ⟨?_, ?_, rfl, hnoop⟩
    · rw [addToDep_val, if_pos rfl]
    · rw [addToDep_val, if_pos rfl]

/-- C2 witness at a concrete scenario graph. -/
theorem C2_witness : gS.Depend 0 0 = .error .ErrDependsOnSelf :=
  ((C2_depend_contract gS inv_gS 0 0).1).mpr rfl

/-- C3: on the scenario graph (a = 0, b = 1, c = 2, d = 3, x = 4, y = 5,
"0" = 6, "1" = 7; edges b->a, c->a, d->c, y->x, 1->0 all built by successful
`Depend` calls), `RemoveAutoRemove` leaves exactly the node sets of the
specification scenario, and removing a, x, 1 empties the graph. -/
theorem C3_autoremove_scenario :
    scenarioE = .ok gS ∧
    gS.RemoveAutoRemove 3 = some gS3 ∧ gS3.nodes = {0, 1, 4, 5, 6, 7} ∧
    gS.RemoveAutoRemove 0 = some gSa ∧ gSa.RemoveAutoRemove 4 = some gSax ∧
    gSax.nodes = {6, 7} ∧
    gSax.RemoveAutoRemove 7 = some gSax1 ∧ gSax1.nodes = ∅ ∧
    gSax1.dependents.keys = ∅ ∧ gSax1.dependencies.keys = ∅ :=
  ⟨scenarioE_ok, auto_d, finset_eq_of_iterList (by decide), auto_a, auto_ax,
    finset_eq_of_iterList (by decide), auto_ax1, finset_eq_of_iterList (by decide),
    finset_eq_of_iterList (by decide), finset_eq_of_iterList (by decide)⟩

/-- C4: `Layers` partitions the Node Set into pairwise-disjoint layers whose
members depend only on strictly earlier layers, and the caller's graph is
untouched (the working copy `Clone` is value-equal to the graph). -/
theorem C4_layers_partition (g : Graph T) (hInv : Inv g) :
    (∀ x, (∃ s ∈ g.Layers, x ∈ s) ↔ x ∈ g.nodes) ∧
    (g.Layers).Pairwise (fun s t => ∀ x, x ∈ s → x ∉ t) ∧
    (∀ i (hi : i < (g.Layers).length), ∀ n ∈ (g.Layers).get ⟨i, hi⟩,
      ∀ d ∈ g.dependencies.val n, ∃ j, ∃ hj : j < (g.Layers).length, j < i ∧
        d ∈ (g.Layers).get ⟨j, hj⟩) ∧
    g.Clone = g := by
  obtain ⟨hA, _, hC, hD⟩ := layersLoop_spec g.nodes.card g hInv le_rfl
  exact ⟨hA, hC, hD, rfl⟩

/-- C4 witness at a concrete scenario graph. -/
theorem C4_witness : (∃ s ∈ gS.Layers, (0 : Nat) ∈ s) ↔ (0 : Nat) ∈ gS.nodes :=
  (C4_layers_partition gS inv_gS).1 0

/-- C5: `RemoveForce` never fails, and its net effect on the Node Set is to
remove exactly the target and its transitive dependents; every other node
survives. -/
theorem C5_removeForce_net_effect (g : Graph T) (hInv : Inv g) (t : T)
    (ht : t ∈ g.nodes) :
    ∃ g2, g.RemoveForce t = some g2 ∧
      ∀ x, (x ∈ g2.nodes ↔
        x ∈ g.nodes ∧ ¬(x = t ∨ Relation.TransGen (DptRel g) t x)) := by
  obtain ⟨gf, heqf, _, hiff⟩ := forceLoop_spec g.removeFuel g [t] hInv (removeFuel_gt g t)
  refine ⟨gf, heqf, fun x => ?_⟩
  rw [hiff x, reachList_singleton]

/-- C5 witness at a concrete scenario graph. -/
theorem C5_witness : (gS.RemoveForce 0).isSome := by
  obtain ⟨g2, heq, _⟩ := C5_removeForce_net_effect gS inv_gS 0 (by decide)
  rw [heq]
  rfl

/-- C6: `Remove` fails with `ErrDependentExists` exactly when some node still
directly depends on the target, and otherwise performs `Delete`: the target
leaves the Node Set and every edge touching it leaves both indices. -/
theorem C6_remove_contract (g : Graph T) (hInv : Inv g) (t : T) :
    (g.Remove t = .error .ErrDependentExists ↔ (g.dependents.val t).Nonempty) ∧
    (g.dependents.val t = ∅ → g.Remove t = .ok (g.Delete t)) ∧
    (∀ g2, g.Remove t = .ok g2 → g2 = g.Delete t ∧
      g2.nodes = g.nodes.erase t ∧
      (∀ a b, b ∈ g2.dependencies.val a ↔ b ∈ g.dependencies.val a ∧ a ≠ t ∧ b ≠ t) ∧
      (∀ a b, b ∈ g2.dependents.val a ↔ b ∈ g.dependents.val a ∧ a ≠ t ∧ b ≠ t)) := by
  refine ⟨?_, ?_, ?_⟩
  · rw [remove_error_iff, dependents_key_iff_nonempty g t hInv]
  · intro hemp
    rw [remove_ok_iff]
    intro hk
    exact hInv.dptNonempty t hk hemp
  · intro g2 h
    obtain ⟨hk, rfl⟩ := remove_ok_inversion h
    exact ⟨rfl, delete_nodes g t, delete_depRel g t hInv, delete_dptRel g t hInv⟩

/-- C6 witness at a concrete one-edge graph. -/
theorem C6_witness : gBA.Remove 0 = .error .ErrDependentExists :=
  ((C6_remove_contract gBA inv_gBA 0).1).mpr ⟨1, by decide⟩

/-- C7: `Undepend` fails with `ErrNoSuchDependency` exactly when the
dependency is not a direct member of the dependent's Dependency Index entry
(in particular on merely transitive dependencies); on success it removes
exactly the one direct edge from both indices and leaves the Node Set
unchanged.  On failure the Go method returns before any mutation, which the
`Except` embedding reflects by yielding no graph at all. -/
theorem C7_undepend_contract (g : Graph T) (x y : T) :
    (g.Undepend x y = .error .ErrNoSuchDependency ↔ y ∉ g.dependencies.val x) ∧
    (∀ g2, g.Undepend x y = .ok g2 →
      g2.nodes = g.nodes ∧
      (∀ a b, b ∈ g2.dependencies.val a ↔ b ∈ g.dependencies.val a ∧ ¬(a = x ∧ b = y)) ∧
      (∀ a b, b ∈ g2.dependents.val a ↔ b ∈ g.dependents.val a ∧ ¬(a = y ∧ b = x))) := by
  refine ⟨undepend_error_iff g x y, ?_⟩
  intro g2 h
  exact ⟨undepend_ok_nodes h, undepend_ok_depRel h, undepend_ok_dptRel h⟩

/-- C7 witness at a concrete one-edge graph. -/
theorem C7_witness : gU.nodes = gBA.nodes :=
  ((C7_undepend_contract gBA 1 0).2 gU undepend_gBA).1

/-- C8 counterexample: in the one-edge graph 1 -> 0, node 0 is a leaf (it
depends on nothing) yet `Remove 0` errors with `ErrDependentExists`, so
"removing a leaf never errors" fails as stated. -/
theorem C8_counterexample :
    Inv gBA ∧ 0 ∈ gBA.Leaves ∧ gBA.Remove 0 = .error .ErrDependentExists :=
  ⟨inv_gBA, by decide, ((remove_error_iff gBA 0).mpr (by decide))⟩

/-- C8 amended: removing a leaf that no node depends on (its Dependent Index
entry is empty) never returns an error. -/
theorem C8_remove_leaf_without_dependents (g : Graph T) (hInv : Inv g) (v : T)
    (hv : v ∈ g.Leaves) (hnd : g.dependents.val v = ∅) :
    g.Remove v = .ok (g.Delete v) := by
  rw [remove_ok_iff]
  intro hk
  exact hInv.dptNonempty v hk hnd

/-- C8 witness: in the graph with nodes 0, 1 and no edges, node 0 is a leaf
with no dependents and `Remove` succeeds. -/
theorem C8_witness : gU.Remove 0 = .ok (gU.Delete 0) :=
  C8_remove_leaf_without_dependents gU inv_gU 0 (by decide)
    (finset_eq_of_iterList (by decide))

/-- C9 counterexample: with edges 10 -> 11 -> 12, `Depend 10 12` succeeds and
`Undepend 10 12` succeeds, but `DependsOn 10 12` is still true through 11, so
the round trip does not restore `DependsOn = false` as stated. -/
theorem C9_counterexample :
    Inv gChain ∧ gChain.Depend 10 12 = .ok gChain2 ∧
    gChain2.Undepend 10 12 = .ok gChain3 ∧ gChain3.DependsOn 10 12 = true :=
  ⟨inv_gChain, depend_chain, undepend_chain, by decide⟩

/-- C9 amended: if the dependent did not already transitively depend on the
dependency, then `Depend(x,y)` followed by `Undepend(x,y)` succeeds, restores
`DependsOn(x,y) = false`, removes the edge from both indices and keeps both
nodes in the Node Set. -/
theorem C9_depend_undepend_roundtrip (g : Graph T) (hInv : Inv g) (x y : T)
    (hnd : g.DependsOn x y = false) (g2 : Graph T) (h1 : g.Depend x y = .ok g2) :
    ∃ g3, g2.Undepend x y = .ok g3 ∧ g3.DependsOn x y = false ∧
      y ∉ g3.dependencies.val x ∧ x ∉ g3.dependents.val y ∧
      x ∈ g3.nodes ∧ y ∈ g3.nodes := by
  have hrel2 := depend_ok_depRel h1
  have hedge2 : y ∈ g2.dependencies.val x := (hrel2 x y).mpr (Or.inr ⟨rfl, rfl⟩)
  have h2 := undepend_ok_of_mem hedge2
  have hrel3 := undepend_ok_depRel h2
  have hrelT3 := undepend_ok_dptRel h2
  have hnodes3 := undepend_ok_nodes h2
  have hnodes2 : g2.nodes = insert x (insert y g.nodes) := by
    obtain ⟨_, _, rfl⟩ := depend_ok_inversion h1
    rfl
  refine ⟨_, h2, ?_, ?_, ?_, ?_, ?_⟩
  · have hsub : ∀ a b, b ∈ ({ g2 with
        dependents := removeFromDep g2.dependents y x
        dependencies := removeFromDep g2.dependencies x y } : Graph T).dependencies.val a →
        b ∈ g.dependencies.val a := by
      intro a b hb
      have := (hrel3 a b).mp hb
      rcases (hrel2 a b).mp this.1 with h3 | h3
      · exact h3
      · exact absurd h3 this.2
    have hng : ¬ Relation.TransGen (DepRel g) x y := by
      intro ht
      have hx : x ∈ g.nodes := transGen_mem_nodes hInv ht
      have : g.DependsOn x y = true := (dependsOn_iff g x y).mpr ⟨hx, ht⟩
      rw [hnd] at this
      cases this
    cases hb : Graph.DependsOn _ x y with
    | false => rfl
    | true =>
      have ht := ((dependsOn_iff _ x y).mp hb).2
      exact absurd (Relation.TransGen.mono hsub ht) hng
  · intro hm
    exact ((hrel3 x y).mp hm).2 ⟨rfl, rfl⟩
  · intro hm
    exact ((hrelT3 y x).mp hm).2 ⟨rfl, rfl⟩
  · rw [hnodes3, hnodes2]
    exact Finset.mem_insert_self x _
  · rw [hnodes3, hnodes2]
    exact Finset.mem_insert_of_mem (Finset.mem_insert_self y _)

/-- C9 witness: round trip on the concrete two-node edgeless graph. -/
theorem C9_witness : ∃ g3, gU2.Undepend 1 0 = .ok g3 ∧ g3.DependsOn 1 0 = false := by
  obtain ⟨g3, ha, hb, _⟩ :=
    C9_depend_undepend_roundtrip gU inv_gU 1 0 (by decide) gU2 depend_gU
  exact ⟨g3, ha, hb⟩

/-- C10: on an invariant-respecting graph the internal panic branches of
`RemoveForce` and `RemoveAutoRemove` are unreachable: both cascades always
return a graph (`none` models a panic). -/
theorem C10_removal_cascades_never_panic (g : Graph T) (hInv : Inv g) (t : T) :
    (g.RemoveForce t).isSome ∧ (g.RemoveAutoRemove t).isSome := by
  obtain ⟨gf, heqf, _, _⟩ := forceLoop_spec g.removeFuel g [t] hInv (removeFuel_gt g t)
  obtain ⟨ga, heqa, _⟩ := autoRemoveLoop_spec g.removeFuel g [t] hInv (removeFuel_gt g t)
  constructor
  · rw [Graph.RemoveForce, heqf]
    rfl
  · rw [Graph.RemoveAutoRemove, heqa]
    rfl

/-- C10 witness at a concrete scenario graph. -/
theorem C10_witness : (gS.RemoveForce 3).isSome ∧ (gS.RemoveAutoRemove 3).isSome :=
  C10_removal_cascades_never_panic gS inv_gS 3

end Depgraph
